import Mathlib

/-!
# Verification of the DumbDB storage engine and query front-end

This file gives a shallow embedding, in Lean 4, of the core of the DumbDB
repository (an educational append-only, log-structured database engine written
in Python) and proves or refutes the specification claims about it.

Embedding conventions:
* Python strings are Lean `String`s; the byte content of a table file is a
  `List Char` (file content here is ASCII, so `f.tell()` byte offsets coincide
  with character offsets).
* Python `dict`s are insertion-ordered association lists with unique keys;
  `dict[k] = v` is `dictUpsert` (replace in place or append), `del dict[k]`
  fails on an absent key.
* Code that can raise an exception is modelled in `Option`: `none` is a raised
  exception (`KeyError`, `ValueError`, `IndexError`), `some` a normal return.
* The Python `csv` module is an external library; its writer is modelled
  byte-exactly (`QUOTE_MINIMAL` quoting, `\r\n` line terminator, the `excel`
  dialect defaults used by the code), and its reader (`csv.DictReader`,
  `csv.reader`) by its round-trip contract: reading back a file written by the
  writer yields the written rows keyed by the header row.
-/

namespace DumbDB

/-! ## Python string helpers (`str.strip`, `str.strip "'"`, `split(",")`) -/

/-- Strip characters satisfying `p` from both ends of a character list,
exactly as Python's `str.strip` family does. -/
def stripEnds (p : Char → Bool) (l : List Char) : List Char :=
  ((l.dropWhile p).reverse.dropWhile p).reverse

/-- The characters Python's default `str.strip()` removes. -/
def isPyWhite (c : Char) : Bool :=
  c = ' ' || c = '\t' || c = '\n' || c = '\r' || c = '\x0b' || c = '\x0c'

/-- Python `s.strip()` on raw characters. -/
def pyStrip (l : List Char) : List Char := stripEnds isPyWhite l

/-- Python `s.strip("'")`: remove single quotes from both ends. -/
def stripApos (s : String) : String := ⟨stripEnds (· = '\'') s.data⟩

/-- Python `s.split(",")` (plain split on every comma, no CSV awareness);
this is what the indexed read path uses to decode a record line. -/
def splitOnComma : List Char → List (List Char)
  | [] => [[]]
  | c :: rest =>
    if c = ',' then [] :: splitOnComma rest
    else
      match splitOnComma rest with
      | [] => [[c]]
      | h :: t => (c :: h) :: t

/-! ## Python `dict` as an insertion-ordered association list -/

/-- `dict[k]` as an `Option` (a `KeyError` is `none` at use sites). -/
def dictLookup {α : Type} : List (String × α) → String → Option α
  | [], _ => none
  | (k, v) :: rest, key => if k = key then some v else dictLookup rest key

/-- `k in dict`. -/
def dictContains {α : Type} (m : List (String × α)) (key : String) : Bool :=
  (dictLookup m key).isSome

/-- `dict[k] = v`: replace the value in place if the key exists (keeping its
position, as Python dicts do), otherwise append the new pair. -/
def dictUpsert {α : Type} : List (String × α) → String → α → List (String × α)
  | [], key, v => [(key, v)]
  | (k, w) :: rest, key, v =>
    if k = key then (k, v) :: rest else (k, w) :: dictUpsert rest key v

/-- `del dict[k]` / `dict.pop(k)` after the key has been checked present:
drop the pair with that key. -/
def dictErase {α : Type} (m : List (String × α)) (key : String) : List (String × α) :=
  m.filter (fun kv => kv.1 ≠ key)

/-- `dict.update(other)`: upsert every pair of `other` in order. -/
def dictUpdate {α : Type} (m other : List (String × α)) : List (String × α) :=
  other.foldl (fun acc kv => dictUpsert acc kv.1 kv.2) m

/-! ## The CSV writer (Python `csv.writer`, default `excel` dialect) -/

/-- `QUOTE_MINIMAL`: a field is quoted iff it contains the delimiter, the
quote character, or a line-terminator character. -/
def csvNeedsQuote (s : String) : Bool :=
  s.data.any (fun c => c = ',' || c = '"' || c = '\r' || c = '\n')

/-- Encode one field: doubled inner quotes and surrounding quotes when needed. -/
def csvField (s : String) : List Char :=
  if csvNeedsQuote s then
    '"' :: (s.data.flatMap (fun c => if c = '"' then ['"', '"'] else [c])) ++ ['"']
  else s.data

/-- Join encoded fields with the `,` delimiter. -/
def joinFields : List (List Char) → List Char
  | [] => []
  | [f] => f
  | f :: rest => f ++ ',' :: joinFields rest

/-- `csv.writer.writerow`: comma-joined encoded fields followed by the default
`excel`-dialect line terminator `\r\n` (the code never overrides it). -/
def csvLine (vals : List String) : List Char :=
  joinFields (vals.map csvField) ++ ['\r', '\n']

/-! ## Records and table files -/

/-- One data record of a table log: the user cells (aligned with the user
headers) plus the tombstone flag that the engine appends as the last cell. -/
structure Rec where
  cells : List String
  deleted : Bool
deriving Repr, DecidableEq

/-- `str(False)` / `str(True)`, the strings the `csv` writer produces for the
boolean tombstone flag appended by `insert`/`delete`. -/
def flagStr : Bool → String
  | false => "False"
  | true => "True"

/-- The line a record occupies in the file. -/
def recLine (r : Rec) : List Char := csvLine (r.cells ++ [flagStr r.deleted])

/-- The header line `create_table` writes: user headers plus `__deleted__`. -/
def headerLine (headers : List String) : List Char :=
  csvLine (headers ++ ["__deleted__"])

/-- The full byte content of a table file: the header line followed by every
record line, in log order. -/
def tableFile (headers : List String) (log : List Rec) : List Char :=
  headerLine headers ++ (log.map recLine).flatten

/-! ## WHERE conditions and `evaluate_where_clause` -/

/-- The WHERE-clause AST (`EqualsCondition` / `AndCondition` from
`dumbdb/parser/ast.py`). -/
inductive Cond where
  | eq (col : String) (val : String)
  | and (l r : Cond)
deriving Repr, DecidableEq

/-- `AppendOnlyDBMS.evaluate_where_clause`.  `row[column.name]` raises a
`KeyError` (here `none`) when the column is absent; the equality compares the
cell to the literal with surrounding single quotes stripped; `and` is Python's
short-circuiting `and`. -/
def evalWhereClause (row : List (String × String)) : Cond → Option Bool
  | .eq col v =>
    match dictLookup row col with
    | none => none
    | some cell => some (cell = stripApos v)
  | .and l r =>
    match evalWhereClause row l with
    | none => none
    | some false => some false
    | some true => evalWhereClause row r

/-! ## The scan-path query (`AppendOnlyDBMS.query`) -/

/-- The dict `csv.DictReader` yields for a record: header row keys (user
headers then `__deleted__`) zipped with the record's cells and flag. -/
def rowDict (headers : List String) (r : Rec) : List (String × String) :=
  (headers ++ ["__deleted__"]).zip (r.cells ++ [flagStr r.deleted])

/-- The first loop of `query`: `matching_rows[row['id']] = row` over the whole
log (`row['id']` raises when `id` is not a header). -/
def scanFold (headers : List String) (log : List Rec) :
    Option (List (String × List (String × String))) :=
  log.foldlM
    (fun m r =>
      match dictLookup (rowDict headers r) "id" with
      | none => none
      | some i => some (dictUpsert m i (rowDict headers r)))
    []

/-- A Python filtering comprehension whose predicate can raise: the first
raising element aborts the whole comprehension. -/
def optFilter {α : Type} (f : α → Option Bool) : List α → Option (List α)
  | [] => some []
  | x :: rest =>
    match f x with
    | none => none
    | some b => (optFilter f rest).map (fun r => if b then x :: r else r)

/-- `{k: v for k, v in m.items() if v['__deleted__'] == 'False'}` — a missing
`__deleted__` key is a `KeyError`. -/
def liveFilter (m : List (String × List (String × String))) :
    Option (List (String × List (String × String))) :=
  optFilter (fun kv => (dictLookup kv.2 "__deleted__").map (fun s => s = "False")) m

/-- `AppendOnlyDBMS.query`: last-record-per-id map, drop tombstoned entries,
apply the WHERE clause if present, remove the `__deleted__` column, return the
remaining rows in map order. -/
def scanQuery (headers : List String) (log : List Rec) (w : Option Cond) :
    Option (List (List (String × String))) := do
  let m ← scanFold headers log
  let m ← liveFilter m
  let m ← match w with
    | none => pure m
    | some c => optFilter (fun kv => evalWhereClause kv.2 c) m
  pure (m.map (fun kv => dictErase kv.2 "__deleted__"))

/-! ## The catalog (database-level operations)

`create_database` makes the directory and raises when it exists;
`drop_database` removes the directory tree and raises when it is missing —
and leaves `current_database` untouched; `use_database` is guarded by
`require_exists_database`, which returns an error `QueryResult` (state
unchanged) for an unknown name, and otherwise sets `current_database`;
`show_databases` lists the directories. -/

inductive CatOp where
  | createDb (n : String)
  | useDb (n : String)
  | dropDb (n : String)
  | showDbs
deriving Repr, DecidableEq

structure CatState where
  dirs : List String
  current_database : Option String
deriving Repr, DecidableEq

def catStep (s : CatState) : CatOp → Option CatState
  | .createDb n =>
    if n ∈ s.dirs then none else some { s with dirs := s.dirs ++ [n] }
  | .useDb n =>
    if n ∈ s.dirs then some { s with current_database := some n } else some s
  | .dropDb n =>
    if n ∈ s.dirs then some { s with dirs := s.dirs.erase n } else none
  | .showDbs => some s

/-- Run catalog operations from a fresh root (no databases, none selected). -/
def catRun (ops : List CatOp) : Option CatState :=
  ops.foldlM catStep ⟨[], none⟩

/-- Catalog states reachable without ever dropping the currently selected
database (the restriction the counterexample to C3 forces). -/
inductive CatReachableSafe : CatState → Prop where
  | init : CatReachableSafe ⟨[], none⟩
  | step (s : CatState) (op : CatOp) (s' : CatState) :
      CatReachableSafe s → catStep s op = some s' →
      (∀ n, op = CatOp.dropDb n → s.current_database ≠ some n) →
      CatReachableSafe s'

/-! ## `create_table`'s handling of the caller's headers list

`create_table(table_name, headers)` replaces a falsy `headers` (None or `[]`)
by a fresh `["id"]`, then calls `headers.append("__deleted__")` — an in-place
mutation of the caller's list object whenever one was passed. -/

/-- The headers list `create_table` writes as the table file's header row. -/
def create_table_headers (headers : List String) : List String :=
  (if headers.isEmpty then ["id"] else headers) ++ ["__deleted__"]

/-- The caller's list object after `create_table` returns: mutated in place
when non-empty, untouched when the falsy `[]` was replaced by a fresh list. -/
def create_table_caller_headers (headers : List String) : List String :=
  if headers.isEmpty then headers else headers ++ ["__deleted__"]

/-! ## Specification-side description of a point query -/

/-- The id cell of a record (the cell aligned with the `id` header). -/
def recId (headers : List String) (r : Rec) : Option String :=
  dictLookup (headers.zip r.cells) "id"

/-- The last record in the log whose id cell is `k`. -/
def lastRecFor (headers : List String) (log : List Rec) (k : String) : Option Rec :=
  (log.filter (fun r => recId headers r = some k)).getLast?

/-- What a point query `id = k` should return: the cells of the latest record
for `k` when it is not tombstoned, and nothing otherwise. -/
def specQueryId (headers : List String) (log : List Rec) (k : String) :
    List (List (String × String)) :=
  match lastRecFor headers log k with
  | none => []
  | some r => if r.deleted then [] else [headers.zip r.cells]

/-! ## Byte offsets and the hash index

`AppendOnlyDBMSWithHashIndexes` keeps, per table, a `HashIndex`: a dict from
id to the `(start_byte, end_byte)` range of a record line in the file. -/

/-- The last record for `k` in `log` together with the byte offset at which its
line starts, when the scan starts at offset `pos`. -/
def lastOccFrom (headers : List String) (pos : Nat) (log : List Rec) (k : String) :
    Option (Rec × Nat) :=
  match log with
  | [] => none
  | r :: rest =>
    match lastOccFrom headers (pos + (recLine r).length) rest k with
    | some x => some x
    | none => if recId headers r = some k then some (r, pos) else none

/-- The byte range the index is supposed to associate with `k`: the line of the
last record for `k` when that record is live, nothing otherwise. -/
def specOffsets (headers : List String) (log : List Rec) (k : String) :
    Option (Nat × Nat) :=
  match lastOccFrom headers (headerLine headers).length log k with
  | none => none
  | some (r, s) => if r.deleted then none else some (s, s + (recLine r).length)

/-- State of one table of `AppendOnlyDBMSWithHashIndexes`: the log backing the
file and the in-memory hash index (`HashIndex.__index__`). -/
structure IState where
  log : List Rec
  idx : List (String × (Nat × Nat))
deriving Repr, DecidableEq

/-- `f.seek(start); f.read(end - start)`. -/
def readRange (f : List Char) (s e : Nat) : List Char := (f.drop s).take (e - s)

/-- `AppendOnlyDBMSWithHashIndexes.insert`: capture `start = f.tell()`, append
`list(row.values()) + [False]` as one CSV line, capture `end = f.tell()`, and
set the index entry for `row["id"]` to `(start, end)`.  A row without an `id`
key raises a `KeyError`. -/
def insertRow (headers : List String) (st : IState) (row : List (String × String)) :
    Option IState :=
  match dictLookup row "id" with
  | none => none
  | some key =>
    let cells := row.map (fun kv => kv.2)
    let start := (tableFile headers st.log).length
    let line := recLine ⟨cells, false⟩
    some { log := st.log ++ [⟨cells, false⟩]
           idx := dictUpsert st.idx key (start, start + line.length) }

/-- `AppendOnlyDBMSWithHashIndexes.query`.  When the WHERE clause is exactly
`id = <literal>` the literal is looked up in the index *verbatim*; a
`KeyError` there is caught and turned into an empty result.  Otherwise the
bytes `[start, end)` are read from the file, stripped, split on plain commas,
zipped with the file's header row, the `__deleted__` key popped (a `KeyError`
when absent) and the WHERE clause re-evaluated.  An empty read or any other
clause shape falls through to the scan path. -/
def queryIdx (headers : List String) (st : IState) (w : Option Cond) :
    Option (List (List (String × String))) :=
  match w with
  | some (Cond.eq col v) =>
    if col = "id" then
      match dictLookup st.idx v with
      | none => some []
      | some (sb, eb) =>
        let raw := readRange (tableFile headers st.log) sb eb
        if raw.isEmpty then scanQuery headers st.log w
        else
          let vals := (splitOnComma (pyStrip raw)).map (fun l => (⟨l⟩ : String))
          let rd := (headers ++ ["__deleted__"]).zip vals
          if dictContains rd "__deleted__" then
            let rd' := dictErase rd "__deleted__"
            match evalWhereClause rd' (Cond.eq col v) with
            | none => none
            | some true => some [rd']
            | some false => some []
          else none
    else scanQuery headers st.log w
  | _ => scanQuery headers st.log w

/-- `AppendOnlyDBMS.update` as inherited by the indexed engine: reject a
set-clause touching `id` (`ValueError`), query the matching rows through
`self.query` (the indexed query), and re-insert each row merged with the
set-clause via `self.insert` (the indexed insert). -/
def updateRows (headers : List String) (st : IState)
    (setClause : List (String × String)) (w : Option Cond) : Option IState :=
  if dictContains setClause "id" then none
  else do
    let rows ← queryIdx headers st w
    rows.foldlM (fun acc row => insertRow headers acc (dictUpdate row setClause)) st

/-- Append a tombstone copy of each given row (`AppendOnlyDBMS.delete`'s write
loop: `list(row.values()) + [True]` per matching row). -/
def appendTombstones (st : IState) (rows : List (List (String × String))) : IState :=
  { st with log := st.log ++ rows.map (fun row => ⟨row.map (fun kv => kv.2), true⟩) }

/-- `super().delete(...)` as called from the indexed `delete`: re-query the
matching rows through `self.query` (dynamic dispatch: the indexed query) and
append a tombstone for each; when nothing matches, return without writing. -/
def superDelete (headers : List String) (st : IState) (w : Option Cond) :
    Option IState := do
  let m2 ← queryIdx headers st w
  pure (if m2.isEmpty then st else appendTombstones st m2)

/-- One iteration of the indexed `delete` loop: `super().delete(table, w)`
followed by `self.hash_indexes[table].delete_row_offsets(row["id"])` — both
the id access and the `del` on an absent key raise `KeyError`. -/
def deleteLoopBody (headers : List String) (w : Option Cond) (acc : IState)
    (row : List (String × String)) : Option IState := do
  let acc1 ← superDelete headers acc w
  match dictLookup row "id" with
  | none => none
  | some key =>
    if dictContains acc1.idx key then
      pure { acc1 with idx := dictErase acc1.idx key }
    else none

/-- `AppendOnlyDBMSWithHashIndexes.delete`: materialise the matching rows, and
run the loop body for each one. -/
def deleteRows (headers : List String) (st : IState) (w : Option Cond) :
    Option IState := do
  let rows ← queryIdx headers st w
  rows.foldlM (deleteLoopBody headers w) st

/-! ## `HashIndex.from_csv`: rebuilding the index by replaying the log

`from_csv` reads the header row, then replays each line: it records the
line's start/end byte offsets, decodes it into a dict keyed by the header
row, and — if the `__deleted__` cell is the string `True` — removes the
index-column's value from the mapping with `del` (a `KeyError` when absent),
otherwise maps it to the line's `(start, end)`.  Missing `__deleted__` or
index columns are `KeyError`s as well.  The log is given structurally (the
line reading and CSV decoding of the library are modelled by their round
trip); byte offsets accumulate over the encoded line lengths exactly as
`f.tell()` does. -/

def hashIndexReplay (headers : List String) (idxCol : String) :
    Nat → List (String × (Nat × Nat)) → List Rec →
    Option (List (String × (Nat × Nat)))
  | _, idx, [] => some idx
  | pos, idx, r :: rest =>
    let line := recLine r
    let d := rowDict headers r
    match dictLookup d "__deleted__" with
    | none => none
    | some flag =>
      match dictLookup d idxCol with
      | none => none
      | some key =>
        if flag = "True" then
          if dictContains idx key then
            hashIndexReplay headers idxCol (pos + line.length)
              (dictErase idx key) rest
          else none
        else
          hashIndexReplay headers idxCol (pos + line.length)
            (dictUpsert idx key (pos, pos + line.length)) rest

/-- `HashIndex.from_csv` on the file of a table with the given user headers:
replay every record after the header line. -/
def hashIndexFromLog (headers : List String) (idxCol : String)
    (log : List Rec) : Option (List (String × (Nat × Nat))) :=
  hashIndexReplay headers idxCol (headerLine headers).length [] log

/-- The condition C4's amended claim isolates: every record whose
`__deleted__` cell is `True` finds its key present in the mapping at its
replay position (and every record's `__deleted__` and index cells exist).
Tracks only the key set of the evolving mapping. -/
def tombstoneKeysPresent (headers : List String) (idxCol : String) :
    List String → List Rec → Bool
  | _, [] => true
  | keys, r :: rest =>
    match dictLookup (rowDict headers r) "__deleted__",
          dictLookup (rowDict headers r) idxCol with
    | some flag, some key =>
      if flag = "True" then
        key ∈ keys && tombstoneKeysPresent headers idxCol (keys.erase key) rest
      else
        tombstoneKeysPresent headers idxCol
          (if key ∈ keys then keys else keys ++ [key]) rest
    | _, _ => false

/-! ## `compact_table`

`compact_table` reads the whole file with `DictReader` into a
last-record-per-id dict, drops tombstoned entries, and rewrites the file:
the header row is `list(compacted_data.values())[0].keys()` — an
`IndexError` when no row survives — and one line of `row.values()` per
surviving dict.  The rewritten file is then what a re-read parses back
(writer/reader round trip of the `csv` library). -/

/-- The shared read phase of `query` and `compact_table`: last record per id,
tombstoned entries dropped. -/
def liveMap (headers : List String) (log : List Rec) :
    Option (List (String × List (String × String))) := do
  let m ← scanFold headers log
  liveFilter m

/-- `compact_table`'s result, as the records a re-read of the rewritten file
yields: for each surviving dict, its cells are its values minus the
`__deleted__` value, and its flag cell is the (live) `__deleted__` value. -/
def compactTable (headers : List String) (log : List Rec) :
    Option (List Rec) := do
  let m ← liveMap headers log
  match m with
  | [] => none
  | _ :: _ =>
    some (m.map (fun kv =>
      ⟨(dictErase kv.2 "__deleted__").map Prod.snd,
       !(dictLookup kv.2 "__deleted__" = some "False")⟩))

/-- The exact bytes `compact_table` writes: the first surviving dict's keys
as the header line, then each surviving dict's values as a line. -/
def compactFileBytes (headers : List String) (log : List Rec) :
    Option (List Char) := do
  let m ← liveMap headers log
  match m with
  | [] => none
  | kv0 :: _ =>
    some (csvLine (kv0.2.map Prod.fst) ++
      (m.map (fun kv => csvLine (kv.2.map Prod.snd))).flatten)

/-- The table file's bytes after a `compact_table` call returns *or raises*:
an exception in the read phase (`row['id']` / `v['__deleted__']`, before the
file is reopened) leaves the file as it was; after that,
`open(table_file, 'w')` truncates the file first, so the `IndexError` that
`list(compacted_data.values())[0]` raises on a no-survivor table leaves the
file empty; on success the rewritten lines are in place. -/
def compactTableFileAfter (headers : List String) (log : List Rec) : List Char :=
  match liveMap headers log with
  | none => tableFile headers log
  | some [] => []
  | some (kv0 :: rest) =>
    csvLine (kv0.2.map Prod.fst) ++
      ((kv0 :: rest).map (fun kv => csvLine (kv.2.map Prod.snd))).flatten

/-! ## Operation sequences over one table -/

/-- The write operations of the public table contract. -/
inductive Op where
  | insert (row : List (String × String))
  | update (setClause : List (String × String)) (w : Option Cond)
  | delete (w : Option Cond)
deriving Repr

/-- One step of the indexed engine. -/
def stepI (headers : List String) (st : IState) : Op → Option IState
  | .insert row => insertRow headers st row
  | .update s w => updateRows headers st s w
  | .delete w => deleteRows headers st w

/-- Run a sequence of operations on the indexed engine, starting from a fresh
table (`create_table` leaves an empty log and an empty index). -/
def runI (headers : List String) (ops : List Op) : Option IState :=
  ops.foldlM (stepI headers) ⟨[], []⟩

/-- `AppendOnlyDBMS.insert` (no index): append the row with a `False` flag. -/
def insertB (log : List Rec) (row : List (String × String)) : List Rec :=
  log ++ [⟨row.map (fun kv => kv.2), false⟩]

/-- `AppendOnlyDBMS.update`: reject `id` in the set-clause, query matching rows
(scan path), re-insert each merged row. -/
def updateB (headers : List String) (log : List Rec)
    (setClause : List (String × String)) (w : Option Cond) : Option (List Rec) :=
  if dictContains setClause "id" then none
  else do
    let rows ← scanQuery headers log w
    pure (rows.foldl (fun acc row => insertB acc (dictUpdate row setClause)) log)

/-- `AppendOnlyDBMS.delete`: query matching rows (scan path) and append a
tombstone copy of each. -/
def deleteB (headers : List String) (log : List Rec) (w : Option Cond) :
    Option (List Rec) := do
  let rows ← scanQuery headers log w
  pure (if rows.isEmpty then log
        else log ++ rows.map (fun row => ⟨row.map (fun kv => kv.2), true⟩))

/-- One step of the plain append-only engine. -/
def stepB (headers : List String) (log : List Rec) : Op → Option (List Rec)
  | .insert row => some (insertB log row)
  | .update s w => updateB headers log s w
  | .delete w => deleteB headers log w

/-- Run a sequence of operations on the plain engine from a fresh table. -/
def runB (headers : List String) (ops : List Op) : Option (List Rec) :=
  ops.foldlM (stepB headers) []

/-! ## Well-formedness hypotheses -/

/-- A cell value that the CSV writer emits verbatim and that survives the
indexed read path's `strip().split(",")` decode: free of CSV metacharacters,
and with no whitespace or single quote at either end. -/
def plainStr (s : String) : Bool :=
  s.data.all (fun c => !(c = ',' || c = '"' || c = '\r' || c = '\n')) &&
  (match s.data.head? with
   | none => true
   | some c => !(isPyWhite c || c = '\'')) &&
  (match s.data.getLast? with
   | none => true
   | some c => !(isPyWhite c || c = '\''))

/-- Well-formed table headers: distinct user column names, containing `id` and
not containing the reserved `__deleted__` column. -/
def wfHeaders (headers : List String) : Prop :=
  headers.Nodup ∧ "id" ∈ headers ∧ "__deleted__" ∉ headers

/-- A row argument matching the engine's implicit calling convention: its keys
are exactly the user headers in order, and its values are plain. -/
def wfRow (headers : List String) (row : List (String × String)) : Prop :=
  row.map (fun kv => kv.1) = headers ∧ ∀ kv ∈ row, plainStr kv.2 = true

/-- A condition that only mentions user columns. -/
def wfCond (headers : List String) : Cond → Prop
  | .eq col _ => col ∈ headers
  | .and l r => wfCond headers l ∧ wfCond headers r

/-- Lift `wfCond` to an optional WHERE clause. -/
def wfWhere (headers : List String) : Option Cond → Prop
  | none => True
  | some c => wfCond headers c

/-- Well-formed operations. -/
def wfOp (headers : List String) : Op → Prop
  | .insert row => wfRow headers row
  | .update s w => (s.map (fun kv => kv.1)).Nodup ∧
      (∀ kv ∈ s, kv.1 ∈ headers ∧ plainStr kv.2 = true) ∧ wfWhere headers w
  | .delete w => wfWhere headers w

/-- Invariant of the indexed engine: every record has full arity with plain
cells, and the index agrees pointwise with `specOffsets`. -/
def invI (headers : List String) (st : IState) : Prop :=
  (∀ r ∈ st.log, r.cells.length = headers.length ∧ ∀ c ∈ r.cells, plainStr c = true) ∧
  (∀ k, dictLookup st.idx k = specOffsets headers st.log k)

/-- Total length of the record lines of a log. -/
def sumLens (log : List Rec) : Nat := (log.map (fun r => (recLine r).length)).sum

/-- The total counterpart of the first loop of `query`: the last-record-per-id
map, skipping records without an id cell (the engine raises there, and the
well-formedness hypotheses rule that out). -/
def scanMap (headers : List String) (log : List Rec) :
    List (String × List (String × String)) :=
  log.foldl
    (fun m r =>
      match recId headers r with
      | some i => dictUpsert m i (rowDict headers r)
      | none => m)
    []

/-- The `__deleted__ == 'False'` test, as a Boolean predicate on a map entry. -/
def liveB (kv : String × List (String × String)) : Bool :=
  dictLookup kv.2 "__deleted__" = some "False"

/-- The tombstone records `delete` appends for a list of returned rows. -/
def tombsOf (rows : List (List (String × String))) : List Rec :=
  rows.map (fun row => ⟨row.map Prod.snd, true⟩)

/-- WHERE shapes on which `query` always takes the scan path. -/
def usesScan : Option Cond → Prop
  | some (Cond.eq col _) => col ≠ "id"
  | _ => True

/-- The plain engine's invariant: full arity, plain cells. -/
def invB (headers : List String) (log : List Rec) : Prop :=
  ∀ r ∈ log, r.cells.length = headers.length ∧ ∀ c ∈ r.cells, plainStr c = true

/-! ## The tokenizer (src/dumbdb/parser/tokenizer.py) -/

/-- The members of the `TokenType` enum as the source declares them.
`WHERE`, `AND`, `EQUALS`, `UPDATE`, `SET`, `DELETE`, `DROP`, `SHOW`,
`DATABASES`, `TABLES` are *not* members, although `parser.py` and
`grammar.py` reference them. -/
inductive TokType where
  | CREATE | USE | DATABASE | TABLE | SELECT | FROM | INSERT | INTO | VALUES
  | STAR | COMMA | LPAREN | RPAREN | SEMICOLON | IDENTIFIER | LITERAL | WS
  deriving DecidableEq, Repr

/-- `re`'s `\w` over ASCII: `[A-Za-z0-9_]`. -/
def isWordChar (c : Char) : Bool :=
  ('A' ≤ c && c ≤ 'Z') || ('a' ≤ c && c ≤ 'z') || ('0' ≤ c && c ≤ '9') || c == '_'

def isIdentStart (c : Char) : Bool :=
  ('A' ≤ c && c ≤ 'Z') || ('a' ≤ c && c ≤ 'z') || c == '_'

def isDigitCh (c : Char) : Bool := '0' ≤ c && c ≤ '9'

/-- `re`'s `\s` over ASCII. -/
def isSpaceCh (c : Char) : Bool :=
  c == ' ' || c == '\t' || c == '\n' || c == '\x0d' || c == '\x0b' || c == '\x0c'

/-- ASCII upper-casing, as `str.upper` acts on ASCII text. -/
def upChar (c : Char) : Char :=
  if 'a' ≤ c && c ≤ 'z' then Char.ofNat (c.toNat - 32) else c

/-- Longest prefix satisfying `p` (a greedy `X*`). -/
def spanP (p : Char → Bool) : List Char → (List Char × List Char)
  | [] => ([], [])
  | c :: cs =>
      if p c then
        let r := spanP p cs
        (c :: r.1, r.2)
      else ([], c :: cs)

/-- Case-insensitive literal match (`re.IGNORECASE`), returning the text as
it appears in the input together with the rest. -/
def matchCaseless : List Char → List Char → Option (List Char × List Char)
  | [], s => some ([], s)
  | _ :: _, [] => none
  | k :: ks, c :: cs =>
      if upChar c = upChar k then
        (matchCaseless ks cs).map (fun p => (c :: p.1, p.2))
      else none

/-- A keyword pattern `KW\b`: the keyword case-insensitively, then a word
boundary (end of input or a non-word character). -/
def matchKeyword (kw : List Char) (s : List Char) :
    Option (List Char × List Char) :=
  match matchCaseless kw s with
  | none => none
  | some (txt, rest) =>
      match rest with
      | [] => some (txt, [])
      | c :: _ => if isWordChar c then none else some (txt, rest)

/-- A single-character symbol pattern. -/
def matchSym (c : Char) : List Char → Option (List Char × List Char)
  | [] => none
  | x :: xs => if x = c then some ([x], xs) else none

/-- `[A-Za-z_][A-Za-z0-9_]*`. -/
def matchIdentifier : List Char → Option (List Char × List Char)
  | [] => none
  | c :: cs =>
      if isIdentStart c then
        let r := spanP isWordChar cs
        some (c :: r.1, r.2)
      else none

/-- Scan to the first occurrence of `q`, inclusive (`[^q]*q`). -/
def takeUntil (q : Char) : List Char → Option (List Char × List Char)
  | [] => none
  | c :: cs =>
      if c = q then some ([c], cs)
      else (takeUntil q cs).map (fun p => (c :: p.1, p.2))

/-- A quoted string `q[^q]*q`. -/
def matchQuoted (q : Char) : List Char → Option (List Char × List Char)
  | [] => none
  | c :: cs =>
      if c = q then (takeUntil q cs).map (fun p => (c :: p.1, p.2))
      else none

/-- `-?\d+(\.\d+)?`. -/
def matchNumber (s : List Char) : Option (List Char × List Char) :=
  let p := match s with
    | '-' :: rest => (['-'], rest)
    | _ => (([] : List Char), s)
  let d := spanP isDigitCh p.2
  if d.1.isEmpty then none
  else
    match d.2 with
    | '.' :: rest =>
        let f := spanP isDigitCh rest
        if f.1.isEmpty then some (p.1 ++ d.1, d.2)
        else some (p.1 ++ d.1 ++ '.' :: f.1, f.2)
    | _ => some (p.1 ++ d.1, d.2)

/-- The `LITERAL` pattern `\x27[^\x27]*\x27|"[^"]*"|-?\d+(\.\d+)?`. -/
def matchLiteral (s : List Char) : Option (List Char × List Char) :=
  match matchQuoted '\'' s with
  | some r => some r
  | none =>
      match matchQuoted '"' s with
      | some r => some r
      | none => matchNumber s

/-- `\s+`. -/
def matchWS : List Char → Option (List Char × List Char)
  | [] => none
  | c :: cs =>
      if isSpaceCh c then
        let r := spanP isSpaceCh cs
        some (c :: r.1, r.2)
      else none

/-- `Tokenizer.token_patterns`, in the source's order. -/
def tokenPatterns :
    List (TokType × (List Char → Option (List Char × List Char))) :=
  [(TokType.CREATE, matchKeyword ['C', 'R', 'E', 'A', 'T', 'E']),
   (TokType.USE, matchKeyword ['U', 'S', 'E']),
   (TokType.DATABASE, matchKeyword ['D', 'A', 'T', 'A', 'B', 'A', 'S', 'E']),
   (TokType.TABLE, matchKeyword ['T', 'A', 'B', 'L', 'E']),
   (TokType.SELECT, matchKeyword ['S', 'E', 'L', 'E', 'C', 'T']),
   (TokType.FROM, matchKeyword ['F', 'R', 'O', 'M']),
   (TokType.INSERT, matchKeyword ['I', 'N', 'S', 'E', 'R', 'T']),
   (TokType.INTO, matchKeyword ['I', 'N', 'T', 'O']),
   (TokType.VALUES, matchKeyword ['V', 'A', 'L', 'U', 'E', 'S']),
   (TokType.STAR, matchSym '*'),
   (TokType.COMMA, matchSym ','),
   (TokType.LPAREN, matchSym '('),
   (TokType.RPAREN, matchSym ')'),
   (TokType.SEMICOLON, matchSym ';'),
   (TokType.IDENTIFIER, matchIdentifier),
   (TokType.LITERAL, matchLiteral),
   (TokType.WS, matchWS)]

/-- The inner `for token_type, pattern in self.compiled_patterns` loop: the
first pattern that matches at the current position wins. -/
def firstMatch :
    List (TokType × (List Char → Option (List Char × List Char))) →
    List Char → Option (TokType × List Char × List Char)
  | [], _ => none
  | (tt, m) :: rest, s =>
      match m s with
      | some r => some (tt, r.1, r.2)
      | none => firstMatch rest s

/-- Keyword normalisation: only `SELECT/FROM/INSERT/INTO/VALUES` are
upper-cased. -/
def normalizeTok (tt : TokType) (txt : List Char) : List Char :=
  if tt == TokType.SELECT || tt == TokType.FROM || tt == TokType.INSERT ||
      tt == TokType.INTO || tt == TokType.VALUES then
    txt.map upChar
  else txt

/-- The `while pos < len(sql)` loop; `none` is the
`Exception(f"Illegal character: ...")` path. Every pattern consumes at least
one character, so fuel `= length + 1` never runs out first. -/
def tokenizeLoop : Nat → List Char → List (TokType × List Char) →
    Option (List (TokType × List Char))
  | _, [], acc => some acc.reverse
  | 0, _ :: _, _ => none
  | fuel + 1, s, acc =>
      match firstMatch tokenPatterns s with
      | none => none
      | some (tt, txt, rest) =>
          if tt == TokType.WS then tokenizeLoop fuel rest acc
          else tokenizeLoop fuel rest ((tt, normalizeTok tt txt) :: acc)

/-- `Tokenizer.tokenize`. -/
def tokenize (sql : String) : Option (List (TokType × String)) :=
  (tokenizeLoop (sql.length + 1) sql.toList []).map
    (List.map (fun p => (p.1, String.mk p.2)))

/-! ## The engine-level guard (src/dumbdb/dbms/dbms.py)

`require_isset_database` wraps every table-level method of the DBMS classes:
when `self.current_database is None` it returns
`QueryResult(status="error", message="No database selected. ...")` without
calling the wrapped method, so nothing is read or written, no index is
touched and no exception escapes.  The engine state below is the data those
methods touch: the databases on disk (per database, the parsed table files)
and the per-table `hash_indexes` dict of `AppendOnlyDBMSWithHashIndexes`.
`QueryResult` keeps the fields the code sets (the wall-clock `time` field is
dropped). -/

/-- An element of `QueryResult.rows`: `show_tables` puts bare names there,
`query` puts row dicts. -/
inductive RowItem where
  | name (s : String)
  | record (row : List (String × String))
deriving Repr, DecidableEq

/-- `QueryResult(status="success", rows=[], message="")` with the fields the
code sets. -/
structure QueryResult where
  status : String := "success"
  rows : List RowItem := []
  message : String := ""
deriving Repr, DecidableEq

/-- `QueryResult()`. -/
def okResult : QueryResult := {}

/-- The error result the decorator returns when no database is selected. -/
def errorNoDb : QueryResult :=
  { status := "error", rows := [],
    message := "No database selected. Use 'USE <database_name>' to select a database first." }

/-- One table on disk: the user part of its header row and the record log
after it (the file's bytes are `tableFile headers log`). -/
structure TableState where
  headers : List String
  log : List Rec
deriving Repr, DecidableEq

/-- The state the guarded methods touch: the selected database, the parsed
table files per database, and the per-table hash indexes. -/
structure Engine where
  current_database : Option String
  root : List (String × List (String × TableState))
  hash_indexes : List (String × List (String × (Nat × Nat)))
deriving Repr, DecidableEq

/-- The decorator `require_isset_database`: answer the error result without
running the wrapped method when no database is selected. -/
def require_isset_database
    (body : String → Option (Engine × QueryResult)) (e : Engine) :
    Option (Engine × QueryResult) :=
  match e.current_database with
  | none => some (e, errorNoDb)
  | some db => body db

/-- The current database's tables, as `show_tables` reads them from the
tables directory; `none` is the `FileNotFoundError` of `iterdir` on a
missing directory. -/
def engineTables (e : Engine) (db : String) :
    Option (List (String × TableState)) :=
  dictLookup e.root db

/-- `AppendOnlyDBMS.show_tables`. -/
def engine_show_tables (e : Engine) : Option (Engine × QueryResult) :=
  require_isset_database (fun db =>
    match engineTables e db with
    | none => none
    | some ts => some (e, { rows := ts.map (fun t => RowItem.name t.1) })) e

/-- `require_not_exists_table` then
`AppendOnlyDBMSWithHashIndexes.create_table`: write the header row (a falsy
headers argument becomes `["id"]`, then `__deleted__` is appended) and give
the table a fresh empty `HashIndex()`. -/
def engine_create_table (e : Engine) (tbl : String) (headers : List String) :
    Option (Engine × QueryResult) :=
  require_isset_database (fun db =>
    match engineTables e db with
    | none => none
    | some ts =>
      match dictLookup ts tbl with
      | some _ => none
      | none =>
        let hs := if headers.isEmpty then ["id"] else headers
        some ({ e with
                root := dictUpsert e.root db (dictUpsert ts tbl ⟨hs, []⟩),
                hash_indexes := dictUpsert e.hash_indexes tbl [] },
              okResult)) e

/-- `require_exists_table` then
`AppendOnlyDBMSWithHashIndexes.drop_table`: unlink the file, then
`del self.hash_indexes[table_name]` (a `KeyError` when absent). -/
def engine_drop_table (e : Engine) (tbl : String) :
    Option (Engine × QueryResult) :=
  require_isset_database (fun db =>
    match engineTables e db with
    | none => none
    | some ts =>
      match dictLookup ts tbl with
      | none => none
      | some _ =>
        if dictContains e.hash_indexes tbl then
          some ({ e with
                  root := dictUpsert e.root db (dictErase ts tbl),
                  hash_indexes := dictErase e.hash_indexes tbl },
                okResult)
        else none) e

/-- `require_exists_table` then `AppendOnlyDBMSWithHashIndexes.insert`:
the per-table append and index update of `insertRow`, written back to the
file and to `self.hash_indexes[table_name]` (a `KeyError` when the table has
no index entry). -/
def engine_insert (e : Engine) (tbl : String) (row : List (String × String)) :
    Option (Engine × QueryResult) :=
  require_isset_database (fun db =>
    match engineTables e db with
    | none => none
    | some ts =>
      match dictLookup ts tbl with
      | none => none
      | some t =>
        match dictLookup e.hash_indexes tbl with
        | none => none
        | some idx =>
          match insertRow t.headers ⟨t.log, idx⟩ row with
          | none => none
          | some st =>
            some ({ e with
                    root := dictUpsert e.root db
                      (dictUpsert ts tbl ⟨t.headers, st.log⟩),
                    hash_indexes := dictUpsert e.hash_indexes tbl st.idx },
                  okResult)) e

/-- `require_exists_table` then the inherited `update`, with the indexed
`query`/`insert` reached by dynamic dispatch (`updateRows`). -/
def engine_update (e : Engine) (tbl : String)
    (setClause : List (String × String)) (w : Option Cond) :
    Option (Engine × QueryResult) :=
  require_isset_database (fun db =>
    match engineTables e db with
    | none => none
    | some ts =>
      match dictLookup ts tbl with
      | none => none
      | some t =>
        match dictLookup e.hash_indexes tbl with
        | none => none
        | some idx =>
          match updateRows t.headers ⟨t.log, idx⟩ setClause w with
          | none => none
          | some st =>
            some ({ e with
                    root := dictUpsert e.root db
                      (dictUpsert ts tbl ⟨t.headers, st.log⟩),
                    hash_indexes := dictUpsert e.hash_indexes tbl st.idx },
                  okResult)) e

/-- `require_exists_table` then `AppendOnlyDBMSWithHashIndexes.delete`
(`deleteRows`). -/
def engine_delete (e : Engine) (tbl : String) (w : Option Cond) :
    Option (Engine × QueryResult) :=
  require_isset_database (fun db =>
    match engineTables e db with
    | none => none
    | some ts =>
      match dictLookup ts tbl with
      | none => none
      | some t =>
        match dictLookup e.hash_indexes tbl with
        | none => none
        | some idx =>
          match deleteRows t.headers ⟨t.log, idx⟩ w with
          | none => none
          | some st =>
            some ({ e with
                    root := dictUpsert e.root db
                      (dictUpsert ts tbl ⟨t.headers, st.log⟩),
                    hash_indexes := dictUpsert e.hash_indexes tbl st.idx },
                  okResult)) e

/-- `require_exists_table` then `AppendOnlyDBMSWithHashIndexes.query`
(`queryIdx`); reads only. -/
def engine_query (e : Engine) (tbl : String) (w : Option Cond) :
    Option (Engine × QueryResult) :=
  require_isset_database (fun db =>
    match engineTables e db with
    | none => none
    | some ts =>
      match dictLookup ts tbl with
      | none => none
      | some t =>
        match dictLookup e.hash_indexes tbl with
        | none => none
        | some idx =>
          match queryIdx t.headers ⟨t.log, idx⟩ w with
          | none => none
          | some rows =>
            some (e, { rows := rows.map RowItem.record })) e

/-- `require_exists_table` then
`AppendOnlyDBMSWithHashIndexes.compact_table`: the inherited rewrite
(`compactTable`, an `IndexError` when no row survives) followed by
`HashIndex.from_csv` on the rewritten file. -/
def engine_compact_table (e : Engine) (tbl : String) :
    Option (Engine × QueryResult) :=
  require_isset_database (fun db =>
    match engineTables e db with
    | none => none
    | some ts =>
      match dictLookup ts tbl with
      | none => none
      | some t =>
        match compactTable t.headers t.log with
        | none => none
        | some newLog =>
          match hashIndexFromLog t.headers "id" newLog with
          | none => none
          | some idx =>
            some ({ e with
                    root := dictUpsert e.root db
                      (dictUpsert ts tbl ⟨t.headers, newLog⟩),
                    hash_indexes := dictUpsert e.hash_indexes tbl idx },
                  okResult)) e

/-! ## Association-list lemmas -/

theorem dictLookup_upsert {α : Type} (m : List (String × α)) (key q : String) (v : α) :
    dictLookup (dictUpsert m key v) q = if key = q then some v else dictLookup m q := by
  induction m with
  | nil =>
    by_cases h : key = q <;> simp [dictUpsert, dictLookup, h]
  | cons kv rest ih =>
    obtain ⟨k, w⟩ := kv
    by_cases hk : k = key
    · subst hk
      by_cases hq : k = q <;> simp [dictUpsert, dictLookup, hq]
    · by_cases hq : k = q
      · subst hq
        have : ¬key = k := fun h => hk h.symm
        simp [dictUpsert, dictLookup, hk, this]
      · simp [dictUpsert, dictLookup, hk, hq, ih]

theorem dictErase_cons {α : Type} (k : String) (w : α) (rest : List (String × α))
    (key : String) :
    dictErase ((k, w) :: rest) key =
      if k = key then dictErase rest key else (k, w) :: dictErase rest key := by
  by_cases h : k = key <;> simp [dictErase, List.filter, h]

theorem dictLookup_erase_ne {α : Type} (m : List (String × α)) (key q : String)
    (h : q ≠ key) : dictLookup (dictErase m key) q = dictLookup m q := by
  induction m with
  | nil => simp [dictErase, dictLookup]
  | cons kv rest ih =>
    obtain ⟨k, w⟩ := kv
    rw [dictErase_cons]
    by_cases hk : k = key
    · have hkq : ¬k = q := fun hkq => h (hkq ▸ hk)
      have hkey : ¬key = q := fun hc => h (Eq.symm hc)
      simp [hk, dictLookup, hkq, hkey, ih]
    · by_cases hq : k = q
      · rw [if_neg hk]
        simp [dictLookup, hq, ih]
      · rw [if_neg hk]
        simp [dictLookup, hq, ih]

theorem dictLookup_erase_self {α : Type} (m : List (String × α)) (key : String) :
    dictLookup (dictErase m key) key = none := by
  induction m with
  | nil => simp [dictErase, dictLookup]
  | cons kv rest ih =>
    obtain ⟨k, w⟩ := kv
    rw [dictErase_cons]
    by_cases hk : k = key <;> simp [hk, dictLookup, ih]

theorem dictLookup_append {α : Type} (a b : List (String × α)) (q : String) :
    dictLookup (a ++ b) q = (dictLookup a q).orElse (fun _ => dictLookup b q) := by
  induction a with
  | nil => simp [dictLookup]
  | cons kv rest ih =>
    obtain ⟨k, w⟩ := kv
    by_cases hk : k = q <;> simp [dictLookup, hk, ih]

theorem dictUpsert_fst {α : Type} (m : List (String × α)) (key : String) (v : α) :
    (dictUpsert m key v).map Prod.fst =
      if key ∈ m.map Prod.fst then m.map Prod.fst else m.map Prod.fst ++ [key] := by
  induction m with
  | nil => simp [dictUpsert]
  | cons kv rest ih =>
    obtain ⟨k, w⟩ := kv
    by_cases hk : k = key
    · subst hk
      simp [dictUpsert]
    · have : ¬key = k := fun h => hk h.symm
      by_cases hmem : key ∈ rest.map Prod.fst <;> simp [dictUpsert, hk, this, ih, hmem]

theorem dictUpsert_nodup {α : Type} (m : List (String × α)) (key : String) (v : α)
    (h : (m.map Prod.fst).Nodup) : ((dictUpsert m key v).map Prod.fst).Nodup := by
  rw [dictUpsert_fst]
  by_cases hmem : key ∈ m.map Prod.fst
  · simpa [hmem] using h
  · rw [if_neg hmem, List.nodup_append]
    refine ⟨h, List.nodup_singleton _, ?_⟩
    intro a ha hb
    simp only [List.mem_singleton] at hb
    exact hmem (hb ▸ ha)

theorem dictLookup_isSome_of_mem_keys {α : Type} (m : List (String × α)) (q : String)
    (h : q ∈ m.map Prod.fst) : (dictLookup m q).isSome := by
  induction m with
  | nil => simp at h
  | cons kv rest ih =>
    obtain ⟨k, w⟩ := kv
    by_cases hk : k = q
    · simp [dictLookup, hk]
    · simp only [List.map_cons, List.mem_cons] at h
      rcases h with h | h

      · exact absurd h.symm hk
      · simpa [dictLookup, hk] using ih h

theorem dictLookup_eq_none_of_not_mem_keys {α : Type} (m : List (String × α)) (q : String)
    (h : q ∉ m.map Prod.fst) : dictLookup m q = none := by
  induction m with
  | nil => rfl
  | cons kv rest ih =>
    obtain ⟨k, w⟩ := kv
    simp only [List.map_cons, List.mem_cons] at h
    push_neg at h
    have hk : ¬k = q := fun hc => h.1 (Eq.symm hc)
    simp [dictLookup, hk, ih h.2]

theorem mem_of_dictLookup_eq_some {α : Type} (m : List (String × α)) (q : String) (v : α)
    (h : dictLookup m q = some v) : (q, v) ∈ m := by
  induction m with
  | nil => simp [dictLookup] at h
  | cons kv rest ih =>
    obtain ⟨k, w⟩ := kv
    by_cases hk : k = q
    · subst hk
      simp [dictLookup] at h
      simp [h]
    · simp only [dictLookup, if_neg hk] at h
      exact List.mem_cons_of_mem _ (ih h)

/-- In a dict with distinct keys, filtering by "key is `k` and the value
satisfies `Q`" gives the singleton entry for `k` (when present and accepted)
or nothing. -/
theorem filter_key_eq {α : Type} (m : List (String × α)) (k : String) (Q : α → Bool)
    (hnd : (m.map Prod.fst).Nodup) :
    m.filter (fun kv => decide (kv.1 = k) && Q kv.2) =
      match dictLookup m k with
      | some v => if Q v then [(k, v)] else []
      | none => [] := by
  induction m with
  | nil => rfl
  | cons kv rest ih =>
    obtain ⟨key, v⟩ := kv
    simp only [List.map_cons, List.nodup_cons] at hnd
    by_cases hk : key = k
    · subst hk
      have hnone : dictLookup rest key = none :=
        dictLookup_eq_none_of_not_mem_keys rest key hnd.1
      have hrest : rest.filter (fun kv => decide (kv.1 = key) && Q kv.2) = [] := by
        rw [ih hnd.2, hnone]
      by_cases hq : Q v = true <;>
        simp [List.filter, dictLookup, hq, hrest]
    · simp [List.filter, dictLookup, hk, ih hnd.2]

/-! ## Row-dict lemmas -/

theorem rowDict_eq_append (headers : List String) (r : Rec)
    (har : r.cells.length = headers.length) :
    rowDict headers r = headers.zip r.cells ++ [("__deleted__", flagStr r.deleted)] := by
  unfold rowDict
  rw [List.zip_append (by simpa using har.symm)]
  rfl

theorem keys_zip (headers : List String) (cells : List String)
    (har : cells.length = headers.length) :
    (headers.zip cells).map Prod.fst = headers :=
  List.map_fst_zip _ _ (le_of_eq har.symm)

theorem rowDict_id (headers : List String) (r : Rec)
    (har : r.cells.length = headers.length) :
    dictLookup (rowDict headers r) "id" = recId headers r := by
  rw [rowDict_eq_append headers r har, dictLookup_append, recId]
  cases h : dictLookup (headers.zip r.cells) "id" with
  | some v => rfl
  | none => simp [dictLookup, Option.orElse]

theorem rowDict_deleted (headers : List String) (r : Rec)
    (har : r.cells.length = headers.length) (hd : "__deleted__" ∉ headers) :
    dictLookup (rowDict headers r) "__deleted__" = some (flagStr r.deleted) := by
  rw [rowDict_eq_append headers r har, dictLookup_append]
  have : dictLookup (headers.zip r.cells) "__deleted__" = none := by
    apply dictLookup_eq_none_of_not_mem_keys
    rw [keys_zip headers r.cells har]
    exact hd
  simp [this, dictLookup, Option.orElse]

theorem rowDict_erase (headers : List String) (r : Rec)
    (har : r.cells.length = headers.length) (hd : "__deleted__" ∉ headers) :
    dictErase (rowDict headers r) "__deleted__" = headers.zip r.cells := by
  rw [rowDict_eq_append headers r har]
  unfold dictErase
  rw [List.filter_append]
  have h1 : (headers.zip r.cells).filter (fun kv => kv.1 ≠ "__deleted__") =
      headers.zip r.cells := by
    apply List.filter_eq_self.mpr
    intro kv hkv
    have : kv.1 ∈ headers := by
      have := List.of_mem_zip hkv
      exact this.1
    simp only [ne_eq, decide_eq_true_eq]
    intro hc
    exact hd (hc ▸ this)
  rw [h1]
  simp

theorem rowDict_lookup_isSome (headers : List String) (r : Rec) (col : String)
    (har : r.cells.length = headers.length) (hcol : col ∈ headers) :
    (dictLookup (rowDict headers r) col).isSome := by
  apply dictLookup_isSome_of_mem_keys
  unfold rowDict
  rw [keys_zip _ _ (by simpa using har)]
  exact List.mem_append_left _ hcol

theorem recId_isSome (headers : List String) (r : Rec)
    (har : r.cells.length = headers.length) (hid : "id" ∈ headers) :
    (recId headers r).isSome := by
  apply dictLookup_isSome_of_mem_keys
  rw [keys_zip headers r.cells har]
  exact hid

/-! ## Plain values and the CSV line codec -/

theorem plain_chars {s : String} (h : plainStr s = true) :
    s.data.all (fun c => !(c = ',' || c = '"' || c = '\r' || c = '\n')) = true := by
  unfold plainStr at h
  exact (Bool.and_eq_true_iff.mp (Bool.and_eq_true_iff.mp h).1).1

theorem plain_head {s : String} (h : plainStr s = true) :
    ∀ c, s.data.head? = some c → (isPyWhite c || c = '\'') = false := by
  unfold plainStr at h
  intro c hc
  have h2 := (Bool.and_eq_true_iff.mp (Bool.and_eq_true_iff.mp h).1).2
  rw [hc] at h2
  simpa using h2

theorem plain_last {s : String} (h : plainStr s = true) :
    ∀ c, s.data.getLast? = some c → (isPyWhite c || c = '\'') = false := by
  unfold plainStr at h
  intro c hc
  have h2 := (Bool.and_eq_true_iff.mp h).2
  rw [hc] at h2
  simpa using h2

theorem plain_no_comma {s : String} (h : plainStr s = true) : ',' ∉ s.data := by
  intro hc
  have := List.all_eq_true.mp (plain_chars h) ',' hc
  simp at this

theorem csvField_plain {s : String} (h : plainStr s = true) : csvField s = s.data := by
  unfold csvField
  have hq : csvNeedsQuote s = false := by
    unfold csvNeedsQuote
    rw [List.any_eq_false]
    intro c hc
    have := List.all_eq_true.mp (plain_chars h) c hc
    simpa using this
  rw [hq]
  simp

theorem flagStr_plain (b : Bool) : plainStr (flagStr b) = true := by
  cases b <;> rfl

theorem recLine_plain (r : Rec) (hp : ∀ c ∈ r.cells, plainStr c = true) :
    recLine r = joinFields ((r.cells ++ [flagStr r.deleted]).map String.data) ++
      ['\r', '\n'] := by
  unfold recLine csvLine
  congr 1
  congr 1
  apply List.map_congr_left
  intro v hv
  rcases List.mem_append.mp hv with hv | hv
  · exact csvField_plain (hp v hv)
  · simp only [List.mem_singleton] at hv
    subst hv
    exact csvField_plain (flagStr_plain r.deleted)

/-! ## Decoding a CSV line of plain values by `strip().split(",")` -/

theorem dropWhile_eq_self_of_head {p : Char → Bool} (l : List Char)
    (h : ∀ c, l.head? = some c → p c = false) : l.dropWhile p = l := by
  cases l with
  | nil => rfl
  | cons c t =>
    have := h c rfl
    simp [List.dropWhile, this]

theorem pyStrip_append_crlf (l : List Char)
    (hh : ∀ c, l.head? = some c → isPyWhite c = false)
    (hl : ∀ c, l.getLast? = some c → isPyWhite c = false) :
    pyStrip (l ++ ['\r', '\n']) = l := by
  unfold pyStrip stripEnds
  cases l with
  | nil => rfl
  | cons c t =>
    have hc := hh c rfl
    have h1 : (c :: t ++ ['\r', '\n']).dropWhile isPyWhite = c :: t ++ ['\r', '\n'] := by
      apply dropWhile_eq_self_of_head
      intro d hd
      simp only [List.cons_append, List.head?_cons, Option.some.injEq] at hd
      exact hd ▸ hc
    rw [h1]
    have h2 : (c :: t ++ ['\r', '\n']).reverse = '\n' :: '\r' :: (c :: t).reverse := by
      rw [List.reverse_append]
      rfl
    rw [h2]
    have h3 : ('\n' :: '\r' :: (c :: t).reverse).dropWhile isPyWhite =
        ((c :: t).reverse).dropWhile isPyWhite := by
      rw [List.dropWhile_cons, List.dropWhile_cons]
      norm_num [isPyWhite]
    rw [h3]
    have h4 : ((c :: t).reverse).dropWhile isPyWhite = (c :: t).reverse := by
      apply dropWhile_eq_self_of_head
      intro d hd
      rw [List.head?_reverse] at hd
      exact hl d hd
    rw [h4, List.reverse_reverse]

theorem splitOnComma_ne_nil (l : List Char) : splitOnComma l ≠ [] := by
  cases l with
  | nil => simp [splitOnComma]
  | cons c rest =>
    unfold splitOnComma
    cases splitOnComma rest with
    | nil => by_cases h : c = ',' <;> simp [h]
    | cons h t => by_cases hc : c = ',' <;> simp [hc]

theorem splitOnComma_cons_comma (l : List Char) :
    splitOnComma (',' :: l) = [] :: splitOnComma l := by
  conv_lhs => unfold splitOnComma
  simp

theorem splitOnComma_cons_ne (c : Char) (l : List Char) (hc : ¬c = ',') :
    splitOnComma (c :: l) =
      (c :: (splitOnComma l).headI) :: (splitOnComma l).tail := by
  conv_lhs => unfold splitOnComma
  rw [if_neg hc]
  cases hs : splitOnComma l with
  | nil => exact absurd hs (splitOnComma_ne_nil l)
  | cons x t => simp

theorem splitOnComma_no_comma (l : List Char) (h : ',' ∉ l) : splitOnComma l = [l] := by
  induction l with
  | nil => rfl
  | cons c rest ih =>
    have hc : ¬c = ',' := fun hc => h (hc ▸ List.mem_cons_self c rest)
    have hr : ',' ∉ rest := fun hr => h (List.mem_cons_of_mem c hr)
    rw [splitOnComma_cons_ne c rest hc, ih hr]
    simp

theorem splitOnComma_append (a l : List Char) (h : ',' ∉ a) :
    splitOnComma (a ++ l) =
      (a ++ (splitOnComma l).headI) :: (splitOnComma l).tail := by
  induction a with
  | nil =>
    cases hs : splitOnComma l with
    | nil => exact absurd hs (splitOnComma_ne_nil l)
    | cons x t => simp [hs]
  | cons c a' ih =>
    have hc : ¬c = ',' := fun hc => h (hc ▸ List.mem_cons_self c a')
    have ha' : ',' ∉ a' := fun hr => h (List.mem_cons_of_mem c hr)
    rw [List.cons_append, splitOnComma_cons_ne c (a' ++ l) hc, ih ha']
    simp

theorem splitOnComma_joinFields (vals : List String)
    (h : ∀ v ∈ vals, ',' ∉ v.data) (hne : vals ≠ []) :
    splitOnComma (joinFields (vals.map String.data)) = vals.map String.data := by
  induction vals with
  | nil => exact absurd rfl hne
  | cons v rest ih =>
    cases rest with
    | nil =>
      simp only [List.map_cons, List.map_nil]
      exact splitOnComma_no_comma v.data (h v (List.mem_cons_self v []))
    | cons w rest' =>
      have hv : ',' ∉ v.data := h v (List.mem_cons_self v _)
      have hrest : ∀ x ∈ w :: rest', ',' ∉ x.data :=
        fun x hx => h x (List.mem_cons_of_mem v hx)
      have ihr := ih hrest (by simp)
      show splitOnComma (v.data ++ ',' :: joinFields ((w :: rest').map String.data)) = _
      rw [splitOnComma_append v.data _ hv, splitOnComma_cons_comma, ihr]
      simp

theorem joinFields_head (vals : List String) (hp : ∀ v ∈ vals, plainStr v = true) :
    ∀ c, (joinFields (vals.map String.data)).head? = some c → isPyWhite c = false := by
  induction vals with
  | nil => intro c hc; simp [joinFields] at hc
  | cons v rest ih =>
    intro c hc
    cases rest with
    | nil =>
      simp only [List.map_cons, List.map_nil, joinFields] at hc
      have := plain_head (hp v (List.mem_cons_self v _)) c hc
      exact (Bool.or_eq_false_iff.mp this).1
    | cons w rest' =>
      have hshape : joinFields ((v :: w :: rest').map String.data) =
          v.data ++ ',' :: joinFields ((w :: rest').map String.data) := rfl
      rw [hshape] at hc
      cases hv : v.data with
      | nil =>
        rw [hv] at hc
        simp only [List.nil_append, List.head?_cons, Option.some.injEq] at hc
        rw [← hc]
        rfl
      | cons d t =>
        rw [hv] at hc
        simp only [List.cons_append, List.head?_cons, Option.some.injEq] at hc
        have hpl := plain_head (hp v (List.mem_cons_self v _)) d (by rw [hv]; rfl)
        rw [← hc]
        exact (Bool.or_eq_false_iff.mp hpl).1

theorem joinFields_last (vals : List String) (hp : ∀ v ∈ vals, plainStr v = true) :
    ∀ c, (joinFields (vals.map String.data)).getLast? = some c → isPyWhite c = false := by
  induction vals with
  | nil => intro c hc; simp [joinFields] at hc
  | cons v rest ih =>
    intro c hc
    cases rest with
    | nil =>
      simp only [List.map_cons, List.map_nil, joinFields] at hc
      have := plain_last (hp v (List.mem_cons_self v _)) c hc
      exact (Bool.or_eq_false_iff.mp this).1
    | cons w rest' =>
      have hshape : joinFields ((v :: w :: rest').map String.data) =
          v.data ++ ',' :: joinFields ((w :: rest').map String.data) := rfl
      rw [hshape, List.getLast?_append_cons] at hc
      have hrest : ∀ x ∈ w :: rest', plainStr x = true :=
        fun x hx => hp x (List.mem_cons_of_mem v hx)
      cases hj : joinFields ((w :: rest').map String.data) with
      | nil =>
        rw [hj] at hc
        simp only [List.getLast?_singleton, Option.some.injEq] at hc
        subst hc
        rfl
      | cons d t =>
        rw [hj] at hc
        have : (joinFields ((w :: rest').map String.data)).getLast? = some c := by
          rw [hj]
          rw [show (',' :: d :: t).getLast? = (d :: t).getLast? from rfl] at hc
          exact hc
        exact ih hrest c this

/-- Decoding a line of plain cells with `strip().split(",")` (the indexed read
path) recovers exactly the written cells and flag. -/
theorem decode_recLine (r : Rec) (hp : ∀ c ∈ r.cells, plainStr c = true) :
    (splitOnComma (pyStrip (recLine r))).map (fun l => (⟨l⟩ : String)) =
      r.cells ++ [flagStr r.deleted] := by
  have hvals : ∀ v ∈ r.cells ++ [flagStr r.deleted], plainStr v = true := by
    intro v hv
    rcases List.mem_append.mp hv with hv | hv
    · exact hp v hv
    · simp only [List.mem_singleton] at hv
      exact hv ▸ flagStr_plain r.deleted
  rw [recLine_plain r hp]
  rw [pyStrip_append_crlf _ (joinFields_head _ hvals) (joinFields_last _ hvals)]
  rw [splitOnComma_joinFields _ (fun v hv => plain_no_comma (hvals v hv)) (by simp)]
  rw [List.map_map]
  apply List.map_id''
  intro s
  rfl

/-! ## File layout and byte-offset lemmas -/

theorem tableFile_snoc (headers : List String) (log : List Rec) (r : Rec) :
    tableFile headers (log ++ [r]) = tableFile headers log ++ recLine r := by
  simp [tableFile]

theorem tableFile_append (headers : List String) (log ext : List Rec) :
    tableFile headers (log ++ ext) =
      tableFile headers log ++ (ext.map recLine).flatten := by
  simp [tableFile]

theorem length_tableFile (headers : List String) (log : List Rec) :
    (tableFile headers log).length = (headerLine headers).length + sumLens log := by
  simp [tableFile, sumLens, Function.comp_def]

theorem sumLens_append (a b : List Rec) : sumLens (a ++ b) = sumLens a + sumLens b := by
  simp [sumLens]

theorem readRange_extract (a b c : List Char) :
    readRange (a ++ b ++ c) a.length (a.length + b.length) = b := by
  unfold readRange
  rw [List.append_assoc, List.drop_left, Nat.add_sub_cancel_left, List.take_left]

theorem lastOccFrom_none (headers : List String) (pos : Nat) (log : List Rec)
    (k : String) (h : lastOccFrom headers pos log k = none) :
    ∀ x ∈ log, recId headers x ≠ some k := by
  induction log generalizing pos with
  | nil => intro x hx; simp at hx
  | cons r rest ih =>
    intro x hx
    unfold lastOccFrom at h
    cases htail : lastOccFrom headers (pos + (recLine r).length) rest k with
    | some y => rw [htail] at h; simp at h
    | none =>
      rw [htail] at h
      rcases List.mem_cons.mp hx with hx | hx
      · subst hx
        intro hc
        rw [if_pos hc] at h
        simp at h
      · exact ih _ htail x hx

theorem lastOccFrom_decomp (headers : List String) (pos : Nat) (log : List Rec)
    (k : String) (r : Rec) (s : Nat)
    (h : lastOccFrom headers pos log k = some (r, s)) :
    ∃ pre post, log = pre ++ r :: post ∧ s = pos + sumLens pre ∧
      recId headers r = some k ∧ ∀ x ∈ post, recId headers x ≠ some k := by
  induction log generalizing pos with
  | nil => simp [lastOccFrom] at h
  | cons hd rest ih =>
    unfold lastOccFrom at h
    cases htail : lastOccFrom headers (pos + (recLine hd).length) rest k with
    | some y =>
      rw [htail] at h
      simp only [Option.some.injEq] at h
      obtain ⟨pre, post, hlog, hs, hr, hpost⟩ := ih _ (htail.trans (by rw [h]))
      refine ⟨hd :: pre, post, by rw [hlog]; rfl, ?_, hr, hpost⟩
      rw [hs]
      simp [sumLens]
      omega
    | none =>
      rw [htail] at h
      by_cases hid : recId headers hd = some k
      · rw [if_pos hid] at h
        simp only [Option.some.injEq, Prod.mk.injEq] at h
        obtain ⟨hr, hs⟩ := h
        subst hr
        refine ⟨[], rest, rfl, by simp [sumLens, hs], hid, ?_⟩
        exact lastOccFrom_none headers _ rest k htail
      · rw [if_neg hid] at h
        simp at h

theorem lastRecFor_of_decomp (headers : List String) (pre post : List Rec) (r : Rec)
    (k : String) (hr : recId headers r = some k)
    (hpost : ∀ x ∈ post, recId headers x ≠ some k) :
    lastRecFor headers (pre ++ r :: post) k = some r := by
  unfold lastRecFor
  rw [List.filter_append]
  have hnil : post.filter (fun x => recId headers x = some k) = [] :=
    List.filter_eq_nil_iff.mpr (fun x hx => by simp [hpost x hx])
  have hpostf : (r :: post).filter (fun x => recId headers x = some k) = [r] := by
    rw [List.filter_cons]
    have hdec : (decide (recId headers r = some k)) = true := by simp [hr]
    rw [hdec, if_pos rfl, hnil]
  rw [hpostf]
  simp

theorem lastRecFor_none_of_no_occ (headers : List String) (log : List Rec) (k : String)
    (h : ∀ x ∈ log, recId headers x ≠ some k) : lastRecFor headers log k = none := by
  unfold lastRecFor
  rw [List.filter_eq_nil_iff.mpr]
  · rfl
  · intro x hx
    simp [h x hx]

theorem lastOccFrom_snoc (headers : List String) (pos : Nat) (log : List Rec)
    (r : Rec) (k : String) :
    lastOccFrom headers pos (log ++ [r]) k =
      if recId headers r = some k then some (r, pos + sumLens log)
      else lastOccFrom headers pos log k := by
  induction log generalizing pos with
  | nil =>
    simp only [List.nil_append, lastOccFrom, sumLens, List.map_nil, List.sum_nil,
      Nat.add_zero]
  | cons hd rest ih =>
    simp only [List.cons_append]
    conv_lhs => rw [lastOccFrom]
    rw [ih]
    by_cases hid : recId headers r = some k
    · rw [if_pos hid, if_pos hid]
      have hlen : sumLens (hd :: rest) = (recLine hd).length + sumLens rest := by
        simp [sumLens]
      rw [hlen, Nat.add_assoc]
    · rw [if_neg hid, if_neg hid]
      rw [lastOccFrom]

theorem specOffsets_snoc (headers : List String) (log : List Rec) (r : Rec)
    (k : String) :
    specOffsets headers (log ++ [r]) k =
      if recId headers r = some k then
        (if r.deleted then none
         else some ((tableFile headers log).length,
                    (tableFile headers log).length + (recLine r).length))
      else specOffsets headers log k := by
  unfold specOffsets
  rw [lastOccFrom_snoc]
  by_cases hid : recId headers r = some k
  · rw [if_pos hid, if_pos hid, length_tableFile]
  · rw [if_neg hid, if_neg hid]

theorem lastRecFor_snoc (headers : List String) (log : List Rec) (r : Rec)
    (k : String) :
    lastRecFor headers (log ++ [r]) k =
      if recId headers r = some k then some r else lastRecFor headers log k := by
  unfold lastRecFor
  rw [List.filter_append, List.filter_cons]
  by_cases hid : recId headers r = some k
  · simp [hid]
  · simp [hid]

/-- Reading the indexed byte range out of the file yields exactly the line of
the last (live) record for the key. -/
theorem specOffsets_read (headers : List String) (log : List Rec) (k : String)
    (s e : Nat) (h : specOffsets headers log k = some (s, e)) :
    ∃ r, lastRecFor headers log k = some r ∧ r.deleted = false ∧
      readRange (tableFile headers log) s e = recLine r ∧
      e = s + (recLine r).length := by
  unfold specOffsets at h
  cases hocc : lastOccFrom headers (headerLine headers).length log k with
  | none => rw [hocc] at h; simp at h
  | some rs =>
    obtain ⟨r, s0⟩ := rs
    rw [hocc] at h
    dsimp only at h
    by_cases hdel : r.deleted
    · rw [if_pos hdel] at h; simp at h
    · rw [if_neg hdel] at h
      simp only [Option.some.injEq, Prod.mk.injEq] at h
      obtain ⟨hs, he⟩ := h
      subst hs
      obtain ⟨pre, post, hlog, hs0, hid, hpost⟩ :=
        lastOccFrom_decomp headers _ log k r s0 hocc
      refine ⟨r, hlog ▸ lastRecFor_of_decomp headers pre post r k hid hpost,
        by simpa using hdel, ?_, he.symm⟩
      rw [hlog, ← he]
      have hfile : tableFile headers (pre ++ r :: post) =
          (headerLine headers ++ (pre.map recLine).flatten) ++ recLine r ++
            (post.map recLine).flatten := by
        simp [tableFile]
      rw [hfile]
      have hlen : s0 = (headerLine headers ++ (pre.map recLine).flatten).length := by
        rw [hs0]
        simp [sumLens, Function.comp_def]
      rw [hlen]
      exact readRange_extract _ _ _

theorem specOffsets_none (headers : List String) (log : List Rec) (k : String)
    (h : specOffsets headers log k = none) :
    specQueryId headers log k = [] := by
  unfold specOffsets at h
  unfold specQueryId
  cases hocc : lastOccFrom headers (headerLine headers).length log k with
  | none =>
    rw [lastRecFor_none_of_no_occ headers log k
      (lastOccFrom_none headers _ log k hocc)]
  | some rs =>
    obtain ⟨r, s0⟩ := rs
    rw [hocc] at h
    dsimp only at h
    by_cases hdel : r.deleted
    · obtain ⟨pre, post, hlog, _, hid, hpost⟩ :=
        lastOccFrom_decomp headers _ log k r s0 hocc
      rw [hlog, lastRecFor_of_decomp headers pre post r k hid hpost]
      dsimp only
      rw [if_pos hdel]
    · rw [if_neg hdel] at h
      simp at h

/-! ## Characterising the scan path -/

theorem dictLookup_of_mem_nodup {α : Type} (m : List (String × α))
    (hnd : (m.map Prod.fst).Nodup) (kv : String × α) (h : kv ∈ m) :
    dictLookup m kv.1 = some kv.2 := by
  induction m with
  | nil => simp at h
  | cons hd rest ih =>
    obtain ⟨k, v⟩ := hd
    simp only [List.map_cons, List.nodup_cons] at hnd
    rcases List.mem_cons.mp h with h | h
    · subst h
      simp [dictLookup]
    · have hk : ¬k = kv.1 := by
        intro hc
        apply hnd.1
        exact hc ▸ (List.mem_map.mpr ⟨kv, h, rfl⟩)
      simpa [dictLookup, hk] using ih hnd.2 h

theorem optFilter_eq_filter {α : Type} (f : α → Option Bool) (p : α → Bool)
    (l : List α) (h : ∀ x ∈ l, f x = some (p x)) :
    optFilter f l = some (l.filter p) := by
  induction l with
  | nil => rfl
  | cons x rest ih =>
    have hx := h x (List.mem_cons_self x rest)
    have hr := ih (fun y hy => h y (List.mem_cons_of_mem x hy))
    unfold optFilter
    rw [hx, hr, List.filter_cons]
    by_cases hp : p x = true <;> simp [hp]

theorem optFilter_nil_of_all_false {α : Type} (f : α → Option Bool) (l : List α)
    (h : ∀ x ∈ l, f x = some false) : optFilter f l = some [] := by
  have := optFilter_eq_filter f (fun _ => false) l h
  simpa using this

theorem scanMap_snoc (headers : List String) (log : List Rec) (r : Rec) :
    scanMap headers (log ++ [r]) =
      match recId headers r with
      | some i => dictUpsert (scanMap headers log) i (rowDict headers r)
      | none => scanMap headers log := by
  unfold scanMap
  rw [List.foldl_append]
  rfl

theorem scanFold_eq_scanMap (headers : List String) (log : List Rec)
    (h : ∀ r ∈ log, (recId headers r).isSome)
    (har : ∀ r ∈ log, r.cells.length = headers.length) :
    scanFold headers log = some (scanMap headers log) := by
  induction log using List.reverseRecOn with
  | nil => rfl
  | append_singleton l r ih =>
    have hl : ∀ x ∈ l, (recId headers x).isSome :=
      fun x hx => h x (List.mem_append_left _ hx)
    have harl : ∀ x ∈ l, x.cells.length = headers.length :=
      fun x hx => har x (List.mem_append_left _ hx)
    have hr := h r (List.mem_append_right _ (List.mem_singleton_self r))
    have harr := har r (List.mem_append_right _ (List.mem_singleton_self r))
    unfold scanFold at *
    rw [List.foldlM_append, ih hl harl]
    cases hi : recId headers r with
    | none => rw [hi] at hr; simp at hr
    | some i =>
      have hrd : dictLookup (rowDict headers r) "id" = some i :=
        (rowDict_id headers r harr).trans hi
      simp only [List.foldlM_cons, List.foldlM_nil, Option.bind_eq_bind,
        Option.some_bind, hrd]
      rw [scanMap_snoc, hi]
      rfl

theorem scanMap_nodup (headers : List String) (log : List Rec) :
    ((scanMap headers log).map Prod.fst).Nodup := by
  induction log using List.reverseRecOn with
  | nil => simp [scanMap]
  | append_singleton l r ih =>
    rw [scanMap_snoc]
    cases recId headers r with
    | none => exact ih
    | some i => exact dictUpsert_nodup _ _ _ ih

theorem scanMap_lookup (headers : List String) (log : List Rec) (k : String) :
    dictLookup (scanMap headers log) k =
      (lastRecFor headers log k).map (rowDict headers) := by
  induction log using List.reverseRecOn with
  | nil => simp [scanMap, dictLookup, lastRecFor]
  | append_singleton l r ih =>
    rw [scanMap_snoc, lastRecFor_snoc]
    cases hi : recId headers r with
    | none => simp [ih]
    | some i =>
      by_cases hik : i = k
      · subst hik
        dsimp only
        rw [dictLookup_upsert, if_pos rfl]
        simp
      · dsimp only
        rw [dictLookup_upsert, if_neg hik, ih]
        simp [hik]

/-- Entries of the scan map are row dicts of log records that are the last
record for their key. -/
theorem scanMap_mem (headers : List String) (log : List Rec)
    (kv : String × List (String × String)) (h : kv ∈ scanMap headers log) :
    ∃ r, r ∈ log ∧ recId headers r = some kv.1 ∧
      lastRecFor headers log kv.1 = some r ∧ kv.2 = rowDict headers r := by
  have hl := dictLookup_of_mem_nodup _ (scanMap_nodup headers log) kv h
  rw [scanMap_lookup] at hl
  cases hlast : lastRecFor headers log kv.1 with
  | none => rw [hlast] at hl; simp at hl
  | some r =>
    rw [hlast] at hl
    have hl2 : kv.2 = rowDict headers r := by
      have := hl.symm
      simp only [Option.map_some'] at this
      exact (Option.some.injEq _ _ ▸ this : _)
    have hmemf : r ∈ log.filter (fun x => recId headers x = some kv.1) := by
      obtain ⟨hne, heq⟩ := List.mem_getLast?_eq_getLast (l := log.filter _) (x := r)
        (by rw [lastRecFor] at hlast; rw [hlast]; rfl)
      exact heq ▸ List.getLast_mem hne
    refine ⟨r, List.mem_of_mem_filter hmemf, ?_, rfl, hl2⟩
    simpa using List.of_mem_filter hmemf

/-- `evaluate_where_clause` cannot raise on a row that has every column the
condition mentions. -/
theorem evalWhere_isSome (headers : List String) (row : List (String × String))
    (c : Cond) (hc : wfCond headers c)
    (hrow : ∀ col ∈ headers, (dictLookup row col).isSome) :
    (evalWhereClause row c).isSome := by
  induction c with
  | eq col v =>
    have := hrow col hc
    cases h : dictLookup row col with
    | none => rw [h] at this; simp at this
    | some cell => simp [evalWhereClause, h]
  | and l r ihl ihr =>
    obtain ⟨hl, hr⟩ := hc
    have h1 := ihl hl
    cases h : evalWhereClause row l with
    | none => rw [h] at h1; simp at h1
    | some b =>
      cases b with
      | false => simp [evalWhereClause, h]
      | true => simpa [evalWhereClause, h] using ihr hr

theorem lastRecFor_mem (headers : List String) (log : List Rec) (k : String)
    (r : Rec) (hl : lastRecFor headers log k = some r) :
    r ∈ log ∧ recId headers r = some k := by
  have hmemf : r ∈ log.filter (fun x => recId headers x = some k) := by
    obtain ⟨hne, heq⟩ := List.mem_getLast?_eq_getLast (l := log.filter _) (x := r)
      (by rw [lastRecFor] at hl; rw [hl]; rfl)
    exact heq ▸ List.getLast_mem hne
  exact ⟨List.mem_of_mem_filter hmemf, by simpa using List.of_mem_filter hmemf⟩

/-- `scanQuery` with a WHERE clause, computed: the last-per-id map filtered to
live entries, filtered by the clause, with `__deleted__` dropped. -/
theorem scanQuery_some_eq (headers : List String) (log : List Rec) (c : Cond)
    (hid : "id" ∈ headers) (hdel : "__deleted__" ∉ headers)
    (har : ∀ r ∈ log, r.cells.length = headers.length)
    (hc : wfCond headers c) :
    scanQuery headers log (some c) = some
      ((((scanMap headers log).filter liveB).filter
          (fun kv => evalWhereClause kv.2 c = some true)).map
        (fun kv => dictErase kv.2 "__deleted__")) := by
  have hsome : ∀ r ∈ log, (recId headers r).isSome :=
    fun r hr => recId_isSome headers r (har r hr) hid
  have hmemval : ∀ kv ∈ scanMap headers log, ∃ r, r ∈ log ∧
      kv.2 = rowDict headers r := by
    intro kv hkv
    obtain ⟨r, hr, _, _, hval⟩ := scanMap_mem headers log kv hkv
    exact ⟨r, hr, hval⟩
  have hlive : liveFilter (scanMap headers log) =
      some ((scanMap headers log).filter liveB) := by
    apply optFilter_eq_filter
    intro kv hkv
    obtain ⟨r, hr, hval⟩ := hmemval kv hkv
    rw [hval, rowDict_deleted headers r (har r hr) hdel]
    simp [liveB, hval, rowDict_deleted headers r (har r hr) hdel]
  have hwhere : optFilter (fun kv => evalWhereClause kv.2 c)
      ((scanMap headers log).filter liveB) =
      some (((scanMap headers log).filter liveB).filter
        (fun kv => evalWhereClause kv.2 c = some true)) := by
    apply optFilter_eq_filter
    intro kv hkv
    have hkv' := List.mem_of_mem_filter hkv
    obtain ⟨r, hr, hval⟩ := hmemval kv hkv'
    have htot : (evalWhereClause kv.2 c).isSome := by
      apply evalWhere_isSome headers kv.2 c hc
      intro col hcol
      rw [hval]
      exact rowDict_lookup_isSome headers r col (har r hr) hcol
    cases hev : evalWhereClause kv.2 c with
    | none => rw [hev] at htot; simp at htot
    | some b => cases b <;> simp [hev]
  unfold scanQuery
  rw [scanFold_eq_scanMap headers log hsome har]
  simp only [Option.bind_eq_bind, Option.some_bind, hlive, hwhere]
  rfl

/-- `scanQuery` without a WHERE clause, computed. -/
theorem scanQuery_none_eq (headers : List String) (log : List Rec)
    (hid : "id" ∈ headers) (hdel : "__deleted__" ∉ headers)
    (har : ∀ r ∈ log, r.cells.length = headers.length) :
    scanQuery headers log none = some
      (((scanMap headers log).filter liveB).map
        (fun kv => dictErase kv.2 "__deleted__")) := by
  have hsome : ∀ r ∈ log, (recId headers r).isSome :=
    fun r hr => recId_isSome headers r (har r hr) hid
  have hlive : liveFilter (scanMap headers log) =
      some ((scanMap headers log).filter liveB) := by
    apply optFilter_eq_filter
    intro kv hkv
    obtain ⟨r, hr, _, _, hval⟩ := scanMap_mem headers log kv hkv
    simp [liveB, hval, rowDict_deleted headers r (har r hr) hdel]
  unfold scanQuery
  rw [scanFold_eq_scanMap headers log hsome har]
  simp only [Option.bind_eq_bind, Option.some_bind, hlive]
  rfl

/-- Correctness of the scan path on a point query: `query(id = k)` returns
exactly the user cells of the last record for `k` when that record is live,
and nothing otherwise. -/
theorem scanQuery_id_correct (headers : List String) (log : List Rec) (k : String)
    (hid : "id" ∈ headers) (hdel : "__deleted__" ∉ headers)
    (har : ∀ r ∈ log, r.cells.length = headers.length)
    (hk : stripApos k = k) :
    scanQuery headers log (some (Cond.eq "id" k)) =
      some (specQueryId headers log k) := by
  rw [scanQuery_some_eq headers log (Cond.eq "id" k) hid hdel har hid]
  congr 1
  rw [List.filter_filter]
  have hcongr : (scanMap headers log).filter
      (fun kv => decide (evalWhereClause kv.2 (Cond.eq "id" k) = some true) &&
        liveB kv) =
      (scanMap headers log).filter
        (fun kv => decide (kv.1 = k) &&
          decide (dictLookup kv.2 "__deleted__" = some "False")) := by
    apply List.filter_congr
    intro kv hkv
    obtain ⟨r, hr, hidr, _, hval⟩ := scanMap_mem headers log kv hkv
    have hlookid : dictLookup kv.2 "id" = some kv.1 := by
      rw [hval, rowDict_id headers r (har r hr), hidr]
    have hev : evalWhereClause kv.2 (Cond.eq "id" k) =
        some (decide (kv.1 = k)) := by
      unfold evalWhereClause
      rw [hlookid, hk]
    rw [hev]
    by_cases h1 : kv.1 = k <;> by_cases h2 : liveB kv = true <;>
      simp_all [liveB]
  rw [hcongr,
    filter_key_eq (scanMap headers log) k
      (fun v => decide (dictLookup v "__deleted__" = some "False"))
      (scanMap_nodup headers log),
    scanMap_lookup]
  unfold specQueryId
  cases hlast : lastRecFor headers log k with
  | none => rfl
  | some r =>
    obtain ⟨hrmem, _⟩ := lastRecFor_mem headers log k r hlast
    dsimp only [Option.map_some']
    rw [rowDict_deleted headers r (har r hrmem) hdel]
    cases hdl : r.deleted with
    | false =>
      simp only [flagStr]
      rw [if_pos (by simp)]
      simp [rowDict_erase headers r (har r hrmem) hdel]
    | true =>
      simp only [flagStr]
      rw [if_neg (by simp)]
      simp

/-! ## The indexed read path -/

theorem plain_stripApos {s : String} (h : plainStr s = true) : stripApos s = s := by
  unfold stripApos stripEnds
  have h1 : s.data.dropWhile (fun c => c = '\'') = s.data := by
    apply dropWhile_eq_self_of_head
    intro c hc
    have := plain_head h c hc
    simpa using (Bool.or_eq_false_iff.mp this).2
  rw [h1]
  have h2 : s.data.reverse.dropWhile (fun c => c = '\'') = s.data.reverse := by
    apply dropWhile_eq_self_of_head
    intro c hc
    rw [List.head?_reverse] at hc
    have := plain_last h c hc
    simpa using (Bool.or_eq_false_iff.mp this).2
  rw [h2, List.reverse_reverse]

theorem recLine_ne_nil (r : Rec) : (recLine r).isEmpty = false := by
  unfold recLine csvLine
  simp [List.isEmpty_iff]

/-- The record a live index entry points at decodes, through the indexed read
path, to exactly the row dict of that record. -/
theorem specOffsets_decode (headers : List String) (log : List Rec) (k : String)
    (sb eb : Nat) (hoff : specOffsets headers log k = some (sb, eb))
    (hplain : ∀ r ∈ log, ∀ c ∈ r.cells, plainStr c = true) :
    ∃ r, lastRecFor headers log k = some r ∧ r.deleted = false ∧ r ∈ log ∧
      readRange (tableFile headers log) sb eb = recLine r ∧
      ((headers ++ ["__deleted__"]).zip
        ((splitOnComma (pyStrip (readRange (tableFile headers log) sb eb))).map
          (fun l => (⟨l⟩ : String)))) = rowDict headers r := by
  obtain ⟨r, hlast, hdel, hread, _⟩ := specOffsets_read headers log k sb eb hoff
  obtain ⟨hmem, _⟩ := lastRecFor_mem headers log k r hlast
  refine ⟨r, hlast, hdel, hmem, hread, ?_⟩
  rw [hread, decode_recLine r (hplain r hmem)]
  rfl

/-- Correctness of the indexed point query under the table invariant. -/
theorem queryIdx_id_correct (headers : List String) (st : IState) (k : String)
    (_hid : "id" ∈ headers) (hdel : "__deleted__" ∉ headers)
    (hinv : invI headers st) (hk : plainStr k = true) :
    queryIdx headers st (some (Cond.eq "id" k)) =
      some (specQueryId headers st.log k) := by
  unfold queryIdx
  dsimp only
  rw [if_pos rfl, (hinv.2 k)]
  cases hoff : specOffsets headers st.log k with
  | none => rw [specOffsets_none headers st.log k hoff]
  | some se =>
    obtain ⟨sb, eb⟩ := se
    have hplain : ∀ r ∈ st.log, ∀ c ∈ r.cells, plainStr c = true :=
      fun r hr => (hinv.1 r hr).2
    obtain ⟨r, hlast, hdl, hmem, hread, hdecode⟩ :=
      specOffsets_decode headers st.log k sb eb hoff hplain
    have har := (hinv.1 r hmem).1
    dsimp only
    rw [hread, recLine_ne_nil r]
    simp only [Bool.false_eq_true, if_false]
    rw [hread] at hdecode
    rw [hdecode]
    have hcont : dictContains (rowDict headers r) "__deleted__" = true := by
      unfold dictContains
      rw [rowDict_deleted headers r har hdel]
      rfl
    rw [hcont]
    simp only [if_true]
    rw [rowDict_erase headers r har hdel]
    have hlookid : dictLookup (headers.zip r.cells) "id" = some k :=
      (lastRecFor_mem headers st.log k r hlast).2
    have hev : evalWhereClause (headers.zip r.cells) (Cond.eq "id" k) =
        some true := by
      unfold evalWhereClause
      rw [hlookid, plain_stripApos hk]
      simp
    rw [hev]
    unfold specQueryId
    rw [hlast]
    dsimp only
    rw [hdl]
    simp

/-! ## Invariant preservation: insert -/

theorem zip_keys_self (row : List (String × String)) (headers : List String)
    (hkeys : row.map Prod.fst = headers) :
    headers.zip (row.map Prod.snd) = row := by
  rw [← hkeys]
  have h := List.zip_unzip row
  rwa [List.unzip_eq_map] at h

theorem inv_insert (headers : List String) (st : IState)
    (row : List (String × String)) (hw : wfHeaders headers)
    (hrow : wfRow headers row) (hinv : invI headers st) :
    ∃ st', insertRow headers st row = some st' ∧ invI headers st' ∧
      st'.log = st.log ++ [⟨row.map Prod.snd, false⟩] := by
  obtain ⟨hnd, hid, hdel⟩ := hw
  obtain ⟨hkeys, hplain⟩ := hrow
  have hidkey : (dictLookup row "id").isSome := by
    apply dictLookup_isSome_of_mem_keys
    rw [hkeys]
    exact hid
  cases hkey : dictLookup row "id" with
  | none => rw [hkey] at hidkey; simp at hidkey
  | some key =>
    unfold insertRow
    rw [hkey]
    have harity : (row.map Prod.snd).length = headers.length := by
      rw [← hkeys]
      simp
    have hrecid : recId headers (⟨row.map Prod.snd, false⟩ : Rec) = some key := by
      unfold recId
      rw [zip_keys_self row headers hkeys]
      exact hkey
    refine ⟨_, rfl, ⟨?_, ?_⟩, rfl⟩
    · intro r hr
      rcases List.mem_append.mp hr with hr | hr
      · exact hinv.1 r hr
      · simp only [List.mem_singleton] at hr
        subst hr
        refine ⟨harity, ?_⟩
        intro c hc
        simp only [List.mem_map] at hc
        obtain ⟨kv, hkv, hceq⟩ := hc
        exact hceq ▸ hplain kv hkv
    · intro q
      simp only
      rw [dictLookup_upsert, specOffsets_snoc]
      by_cases hq : key = q
      · subst hq
        rw [if_pos rfl, if_pos hrecid]
        simp
      · rw [if_neg hq, hinv.2 q, if_neg (by rw [hrecid]; simpa using hq)]

/-! ## Shape of query results -/

/-- Every row any query path returns is the user-cell dict of some log
record. -/
theorem scanQuery_rows_shape (headers : List String) (log : List Rec)
    (w : Option Cond) (hid : "id" ∈ headers) (hdel : "__deleted__" ∉ headers)
    (har : ∀ r ∈ log, r.cells.length = headers.length)
    (hwf : wfWhere headers w) :
    ∃ rows, scanQuery headers log w = some rows ∧
      ∀ row ∈ rows, ∃ r, r ∈ log ∧ row = headers.zip r.cells := by
  have hmem : ∀ (ft : List (String × List (String × String))),
      (∀ kv ∈ ft, kv ∈ scanMap headers log) →
      ∀ row ∈ ft.map (fun kv => dictErase kv.2 "__deleted__"),
        ∃ r, r ∈ log ∧ row = headers.zip r.cells := by
    intro ft hsub row hrow
    simp only [List.mem_map] at hrow
    obtain ⟨kv, hkv, hroweq⟩ := hrow
    obtain ⟨r, hr, _, _, hval⟩ := scanMap_mem headers log kv (hsub kv hkv)
    refine ⟨r, hr, ?_⟩
    rw [← hroweq, hval, rowDict_erase headers r (har r hr) hdel]
  cases w with
  | none =>
    refine ⟨_, scanQuery_none_eq headers log hid hdel har, ?_⟩
    exact hmem _ (fun kv hkv => List.mem_of_mem_filter hkv)
  | some c =>
    refine ⟨_, scanQuery_some_eq headers log c hid hdel har hwf, ?_⟩
    exact hmem _
      (fun kv hkv => List.mem_of_mem_filter (List.mem_of_mem_filter hkv))

theorem queryIdx_rows_shape (headers : List String) (st : IState)
    (w : Option Cond) (hw : wfHeaders headers) (hinv : invI headers st)
    (hwf : wfWhere headers w) :
    ∃ rows, queryIdx headers st w = some rows ∧
      ∀ row ∈ rows, ∃ r, r ∈ st.log ∧ row = headers.zip r.cells := by
  obtain ⟨hnd, hid, hdel⟩ := hw
  have har : ∀ r ∈ st.log, r.cells.length = headers.length :=
    fun r hr => (hinv.1 r hr).1
  cases w with
  | none =>
    obtain ⟨rows, hq, hs⟩ := scanQuery_rows_shape headers st.log none hid hdel har trivial
    exact ⟨rows, hq, hs⟩
  | some c =>
    cases c with
    | and l r =>
      obtain ⟨rows, hq, hs⟩ :=
        scanQuery_rows_shape headers st.log (some (Cond.and l r)) hid hdel har hwf
      exact ⟨rows, hq, hs⟩
    | eq col v =>
      by_cases hcol : col = "id"
      · subst hcol
        unfold queryIdx
        dsimp only
        rw [if_pos rfl, (hinv.2 v)]
        cases hoff : specOffsets headers st.log v with
        | none => exact ⟨[], rfl, by simp⟩
        | some se =>
          obtain ⟨sb, eb⟩ := se
          have hplain : ∀ r ∈ st.log, ∀ c ∈ r.cells, plainStr c = true :=
            fun r hr => (hinv.1 r hr).2
          obtain ⟨r, hlast, hdl, hmemr, hread, hdecode⟩ :=
            specOffsets_decode headers st.log v sb eb hoff hplain
          have harr := (hinv.1 r hmemr).1
          dsimp only
          rw [hread, recLine_ne_nil r]
          simp only [Bool.false_eq_true, if_false]
          rw [hread] at hdecode
          rw [hdecode]
          have hcont : dictContains (rowDict headers r) "__deleted__" = true := by
            unfold dictContains
            rw [rowDict_deleted headers r harr hdel]
            rfl
          rw [hcont]
          simp only [if_true]
          rw [rowDict_erase headers r harr hdel]
          have htot : (evalWhereClause (headers.zip r.cells)
              (Cond.eq "id" v)).isSome := by
            apply evalWhere_isSome headers _ _ hwf
            intro col hcolm
            apply dictLookup_isSome_of_mem_keys
            rw [keys_zip headers r.cells harr]
            exact hcolm
          cases hev : evalWhereClause (headers.zip r.cells) (Cond.eq "id" v) with
          | none => rw [hev] at htot; simp at htot
          | some b =>
            cases b with
            | true =>
              refine ⟨_, rfl, ?_⟩
              intro row hrow
              simp only [List.mem_singleton] at hrow
              exact ⟨r, hmemr, hrow⟩
            | false => exact ⟨[], rfl, by simp⟩
      · have hrw : queryIdx headers st (some (Cond.eq col v)) =
            scanQuery headers st.log (some (Cond.eq col v)) := by
          unfold queryIdx
          dsimp only
          rw [if_neg hcol]
        rw [hrw]
        obtain ⟨rows, hq, hs⟩ :=
          scanQuery_rows_shape headers st.log (some (Cond.eq col v)) hid hdel har hwf
        exact ⟨rows, hq, hs⟩

/-! ## Invariant preservation: update -/

theorem dictUpsert_mem_sub {α : Type} (m : List (String × α)) (key : String)
    (v : α) (kv : String × α) (h : kv ∈ dictUpsert m key v) :
    kv ∈ m ∨ kv = (key, v) := by
  induction m with
  | nil => simpa [dictUpsert] using h
  | cons hd rest ih =>
    obtain ⟨k, w⟩ := hd
    unfold dictUpsert at h
    by_cases hk : k = key
    · rw [if_pos hk] at h
      rcases List.mem_cons.mp h with h | h
      · right; rw [h, hk]
      · left; exact List.mem_cons_of_mem _ h
    · rw [if_neg hk] at h
      rcases List.mem_cons.mp h with h | h
      · left; exact h ▸ List.mem_cons_self _ _
      · rcases ih h with h | h
        · left; exact List.mem_cons_of_mem _ h
        · right; exact h

theorem dictUpdate_keys {α : Type} (m other : List (String × α))
    (h : ∀ kv ∈ other, kv.1 ∈ m.map Prod.fst) :
    (dictUpdate m other).map Prod.fst = m.map Prod.fst := by
  induction other generalizing m with
  | nil => rfl
  | cons kv rest ih =>
    unfold dictUpdate at *
    simp only [List.foldl_cons]
    have hkeys : (dictUpsert m kv.1 kv.2).map Prod.fst = m.map Prod.fst := by
      rw [dictUpsert_fst, if_pos (h kv (List.mem_cons_self kv rest))]
    rw [ih (dictUpsert m kv.1 kv.2)
      (fun kv' hkv' => hkeys ▸ h kv' (List.mem_cons_of_mem kv hkv')), hkeys]

theorem dictUpdate_mem_values {α : Type} (m other : List (String × α))
    (kv : String × α) (h : kv ∈ dictUpdate m other) :
    (∃ kv0 ∈ m, kv.2 = kv0.2) ∨ (∃ kv1 ∈ other, kv.2 = kv1.2) := by
  induction other generalizing m with
  | nil => exact Or.inl ⟨kv, h, rfl⟩
  | cons hd rest ih =>
    unfold dictUpdate at *
    simp only [List.foldl_cons] at h
    rcases ih (dictUpsert m hd.1 hd.2) h with h1 | h1
    · obtain ⟨kv0, hkv0, hval⟩ := h1
      rcases dictUpsert_mem_sub m hd.1 hd.2 kv0 hkv0 with h2 | h2
      · exact Or.inl ⟨kv0, h2, hval⟩
      · refine Or.inr ⟨hd, List.mem_cons_self hd rest, ?_⟩
        rw [hval, h2]
    · obtain ⟨kv1, hkv1, hval⟩ := h1
      exact Or.inr ⟨kv1, List.mem_cons_of_mem hd hkv1, hval⟩

/-- Inserting any sequence of well-formed rows preserves the invariant. -/
theorem inv_insertMany (headers : List String) (rows : List (List (String × String)))
    (hw : wfHeaders headers) (hrows : ∀ row ∈ rows, wfRow headers row) :
    ∀ st st', invI headers st →
      rows.foldlM (insertRow headers) st = some st' → invI headers st' := by
  induction rows with
  | nil =>
    intro st st' hinv h
    simp only [List.foldlM_nil] at h
    cases h
    exact hinv
  | cons row rest ih =>
    intro st st' hinv h
    obtain ⟨st1, heq, hinv1, _⟩ :=
      inv_insert headers st row hw (hrows row (List.mem_cons_self row rest)) hinv
    simp only [List.foldlM_cons, heq, Option.bind_eq_bind, Option.some_bind] at h
    exact ih (fun r hr => hrows r (List.mem_cons_of_mem row hr)) st1 st' hinv1 h

theorem inv_update (headers : List String) (st st' : IState)
    (setClause : List (String × String)) (w : Option Cond)
    (hw : wfHeaders headers) (hop : wfOp headers (Op.update setClause w))
    (hinv : invI headers st)
    (h : updateRows headers st setClause w = some st') : invI headers st' := by
  obtain ⟨_, hset, hwfw⟩ := hop
  unfold updateRows at h
  by_cases hid : dictContains setClause "id" = true
  · rw [if_pos hid] at h
    simp at h
  · rw [if_neg hid] at h
    obtain ⟨rows, hq, hshape⟩ := queryIdx_rows_shape headers st w hw hinv hwfw
    rw [hq] at h
    simp only [Option.bind_eq_bind, Option.some_bind] at h
    rw [← List.foldlM_map (fun row => dictUpdate row setClause)] at h
    apply inv_insertMany headers _ hw ?_ st st' hinv h
    intro row hrow
    simp only [List.mem_map] at hrow
    obtain ⟨row0, hrow0, hroweq⟩ := hrow
    obtain ⟨r, hr, hrow0eq⟩ := hshape row0 hrow0
    have har := (hinv.1 r hr).1
    have hkeys0 : row0.map Prod.fst = headers := by
      rw [hrow0eq]
      exact keys_zip headers r.cells har
    constructor
    · rw [← hroweq]
      rw [dictUpdate_keys row0 setClause ?_, hkeys0]
      intro kv hkv
      rw [hkeys0]
      exact (hset kv hkv).1
    · intro kv hkv
      rw [← hroweq] at hkv
      rcases dictUpdate_mem_values row0 setClause kv hkv with h1 | h1
      · obtain ⟨kv0, hkv0, hval⟩ := h1
        rw [hval]
        have : kv0.2 ∈ r.cells := by
          have := List.of_mem_zip (hrow0eq ▸ hkv0)
          exact this.2
        exact (hinv.1 r hr).2 kv0.2 this
      · obtain ⟨kv1, hkv1, hval⟩ := h1
        rw [hval]
        exact (hset kv1 hkv1).2

/-! ## Invariant preservation: delete — support lemmas -/

theorem lastRecFor_append (headers : List String) (a b : List Rec) (k : String) :
    lastRecFor headers (a ++ b) k =
      match lastRecFor headers b k with
      | some r => some r
      | none => lastRecFor headers a k := by
  induction b using List.reverseRecOn with
  | nil => simp [lastRecFor]
  | append_singleton l r ih =>
    rw [← List.append_assoc, lastRecFor_snoc, lastRecFor_snoc, ih]
    by_cases hid : recId headers r = some k
    · rw [if_pos hid, if_pos hid]
    · rw [if_neg hid, if_neg hid]

theorem specOffsets_append_no_id (headers : List String) (log ext : List Rec)
    (q : String) (h : ∀ x ∈ ext, recId headers x ≠ some q) :
    specOffsets headers (log ++ ext) q = specOffsets headers log q := by
  induction ext using List.reverseRecOn with
  | nil => simp
  | append_singleton l r ih =>
    rw [← List.append_assoc, specOffsets_snoc,
      if_neg (h r (List.mem_append_right _ (List.mem_singleton_self r))),
      ih (fun x hx => h x (List.mem_append_left _ hx))]

theorem lastRecFor_some_of_lastOcc (headers : List String) (log : List Rec)
    (k : String) (r : Rec) (s : Nat)
    (hocc : lastOccFrom headers (headerLine headers).length log k = some (r, s)) :
    lastRecFor headers log k = some r := by
  obtain ⟨pre, post, hlog, _, hid, hpost⟩ :=
    lastOccFrom_decomp headers _ log k r s hocc
  rw [hlog]
  exact lastRecFor_of_decomp headers pre post r k hid hpost

theorem specOffsets_isSome_of_live (headers : List String) (log : List Rec)
    (k : String) (r : Rec) (hlast : lastRecFor headers log k = some r)
    (hlive : r.deleted = false) : (specOffsets headers log k).isSome := by
  unfold specOffsets
  cases hocc : lastOccFrom headers (headerLine headers).length log k with
  | none =>
    have := lastRecFor_none_of_no_occ headers log k
      (lastOccFrom_none headers _ log k hocc)
    rw [this] at hlast
    simp at hlast
  | some rs =>
    obtain ⟨r', s⟩ := rs
    have := lastRecFor_some_of_lastOcc headers log k r' s hocc
    rw [this] at hlast
    simp only [Option.some.injEq] at hlast
    subst hlast
    dsimp only
    rw [hlive]
    simp

theorem specOffsets_none_of_deleted (headers : List String) (log : List Rec)
    (k : String) (r : Rec) (hlast : lastRecFor headers log k = some r)
    (hdel : r.deleted = true) : specOffsets headers log k = none := by
  unfold specOffsets
  cases hocc : lastOccFrom headers (headerLine headers).length log k with
  | none => rfl
  | some rs =>
    obtain ⟨r', s⟩ := rs
    have := lastRecFor_some_of_lastOcc headers log k r' s hocc
    rw [this] at hlast
    simp only [Option.some.injEq] at hlast
    subst hlast
    dsimp only
    rw [hdel]
    simp

theorem specOffsets_none_of_lastRec_none (headers : List String) (log : List Rec)
    (k : String) (hlast : lastRecFor headers log k = none) :
    specOffsets headers log k = none := by
  unfold specOffsets
  cases hocc : lastOccFrom headers (headerLine headers).length log k with
  | none => rfl
  | some rs =>
    obtain ⟨r', s⟩ := rs
    have := lastRecFor_some_of_lastOcc headers log k r' s hocc
    rw [this] at hlast
    simp at hlast

theorem lastRecFor_isSome_of_occ (headers : List String) (b : List Rec)
    (k : String) (x : Rec) (hx : x ∈ b) (hid : recId headers x = some k) :
    (lastRecFor headers b k).isSome := by
  unfold lastRecFor
  rw [List.getLast?_isSome]
  exact List.ne_nil_of_mem (List.mem_filter.mpr ⟨hx, by simp [hid]⟩)

theorem lastRecFor_deleted_of_all_deleted (headers : List String) (b : List Rec)
    (k : String) (r : Rec) (hall : ∀ x ∈ b, x.deleted = true)
    (hlast : lastRecFor headers b k = some r) : r.deleted = true :=
  hall r (lastRecFor_mem headers b k r hlast).1

theorem dictLookup_eraseAll {α : Type} (idx : List (String × α))
    (keys : List String) (q : String) :
    dictLookup (keys.foldl (fun m k => dictErase m k) idx) q =
      if q ∈ keys then none else dictLookup idx q := by
  induction keys generalizing idx with
  | nil => simp
  | cons k rest ih =>
    simp only [List.foldl_cons]
    rw [ih]
    by_cases hq : q ∈ rest
    · rw [if_pos hq, if_pos (List.mem_cons_of_mem k hq)]
    · rw [if_neg hq]
      by_cases hqk : q = k
      · subst hqk
        rw [dictLookup_erase_self, if_pos (List.mem_cons_self q rest)]
      · rw [dictLookup_erase_ne idx k q hqk,
          if_neg (by simp [hqk, hq])]

theorem flagStr_eq_false_iff (b : Bool) : (flagStr b = "False") ↔ b = false := by
  cases b <;> simp [flagStr]

theorem tombsOf_deleted (rows : List (List (String × String))) :
    ∀ t ∈ tombsOf rows, t.deleted = true := by
  intro t ht
  simp only [tombsOf, List.mem_map] at ht
  obtain ⟨row, _, hteq⟩ := ht
  rw [← hteq]

theorem map_snd_row (headers : List String) (r : Rec)
    (har : r.cells.length = headers.length) :
    (headers.zip r.cells).map Prod.snd = r.cells :=
  List.map_snd_zip _ _ (le_of_eq har)

theorem tombsOf_arity (headers : List String) (log : List Rec)
    (rows : List (List (String × String)))
    (hshape : ∀ row ∈ rows, ∃ r, r ∈ log ∧ row = headers.zip r.cells)
    (har : ∀ r ∈ log, r.cells.length = headers.length) :
    ∀ t ∈ tombsOf rows, t.cells.length = headers.length := by
  intro t ht
  simp only [tombsOf, List.mem_map] at ht
  obtain ⟨row, hrow, hteq⟩ := ht
  obtain ⟨r, hr, hroweq⟩ := hshape row hrow
  rw [← hteq]
  show (row.map Prod.snd).length = headers.length
  rw [hroweq, map_snd_row headers r (har r hr)]
  exact har r hr

theorem tombsOf_recId (headers : List String) (log : List Rec)
    (rows : List (List (String × String)))
    (hshape : ∀ row ∈ rows, ∃ r, r ∈ log ∧ row = headers.zip r.cells)
    (har : ∀ r ∈ log, r.cells.length = headers.length) :
    ∀ row ∈ rows, recId headers (⟨row.map Prod.snd, true⟩ : Rec) =
      dictLookup row "id" := by
  intro row hrow
  obtain ⟨r, hr, hroweq⟩ := hshape row hrow
  unfold recId
  rw [hroweq, map_snd_row headers r (har r hr)]

/-- A key whose latest record in the tombstone-extended log is live was not
one of the deleted rows, and its latest record is unchanged. -/
theorem live_after_tombs (headers : List String) (log : List Rec)
    (rows : List (List (String × String)))
    (hshape : ∀ row ∈ rows, ∃ r, r ∈ log ∧ row = headers.zip r.cells)
    (hdel : "__deleted__" ∉ headers)
    (har : ∀ r ∈ log, r.cells.length = headers.length)
    (kv : String × List (String × String))
    (hkv : kv ∈ scanMap headers (log ++ tombsOf rows))
    (hlive : liveB kv = true) :
    ∃ r2, kv.2 = rowDict headers r2 ∧ r2.deleted = false ∧
      recId headers r2 = some kv.1 ∧
      lastRecFor headers log kv.1 = some r2 ∧
      ∀ row ∈ rows, dictLookup row "id" ≠ some kv.1 := by
  have har' : ∀ r ∈ log ++ tombsOf rows, r.cells.length = headers.length := by
    intro r hr
    rcases List.mem_append.mp hr with hr | hr
    · exact har r hr
    · exact tombsOf_arity headers log rows hshape har r hr
  obtain ⟨r2, hr2mem, hrecid, hlast', hval⟩ :=
    scanMap_mem headers (log ++ tombsOf rows) kv hkv
  have hlive2 : r2.deleted = false := by
    unfold liveB at hlive
    rw [hval, rowDict_deleted headers r2 (har' r2 hr2mem) hdel] at hlive
    simp only [Option.some.injEq, decide_eq_true_eq] at hlive
    exact (flagStr_eq_false_iff r2.deleted).mp hlive
  rw [lastRecFor_append] at hlast'
  cases htomb : lastRecFor headers (tombsOf rows) kv.1 with
  | some t =>
    rw [htomb] at hlast'
    simp only [Option.some.injEq] at hlast'
    have := lastRecFor_deleted_of_all_deleted headers (tombsOf rows) kv.1 t
      (tombsOf_deleted rows) htomb
    rw [hlast'] at this
    rw [this] at hlive2
    simp at hlive2
  | none =>
    rw [htomb] at hlast'
    refine ⟨r2, hval, hlive2, hrecid, hlast', ?_⟩
    intro row hrow hc
    have ht : (⟨row.map Prod.snd, true⟩ : Rec) ∈ tombsOf rows := by
      simp only [tombsOf, List.mem_map]
      exact ⟨row, hrow, rfl⟩
    have hti : recId headers (⟨row.map Prod.snd, true⟩ : Rec) = some kv.1 := by
      rw [tombsOf_recId headers log rows hshape har row hrow]
      exact hc
    have := lastRecFor_isSome_of_occ headers (tombsOf rows) kv.1 _ ht hti
    rw [htomb] at this
    simp at this

/-- After appending a tombstone for every row a query returned, re-running the
same query returns nothing. -/
theorem scanQuery_after_tombs (headers : List String) (log : List Rec)
    (w : Option Cond) (rows : List (List (String × String)))
    (hid : "id" ∈ headers) (hdel : "__deleted__" ∉ headers)
    (har : ∀ r ∈ log, r.cells.length = headers.length)
    (hwf : wfWhere headers w)
    (hq : scanQuery headers log w = some rows) :
    scanQuery headers (log ++ tombsOf rows) w = some [] := by
  obtain ⟨rows0, hq0, hshape0⟩ := scanQuery_rows_shape headers log w hid hdel har hwf
  have hre : rows0 = rows := by
    rw [hq0] at hq
    exact Option.some.inj hq
  have hshape : ∀ row ∈ rows, ∃ r, r ∈ log ∧ row = headers.zip r.cells :=
    hre ▸ hshape0
  have har' : ∀ r ∈ log ++ tombsOf rows, r.cells.length = headers.length := by
    intro r hr
    rcases List.mem_append.mp hr with hr | hr
    · exact har r hr
    · exact tombsOf_arity headers log rows hshape har r hr
  cases w with
  | none =>
    rw [scanQuery_none_eq headers _ hid hdel har']
    have hnil : (scanMap headers (log ++ tombsOf rows)).filter liveB = [] := by
      rw [List.filter_eq_nil_iff]
      intro kv hkv hlive
      obtain ⟨r2, hval, hlive2, hrecid, hlast, hnorow⟩ :=
        live_after_tombs headers log rows hshape hdel har kv hkv hlive
      have hkv0 : (kv.1, rowDict headers r2) ∈ scanMap headers log := by
        apply mem_of_dictLookup_eq_some
        rw [scanMap_lookup, hlast]
        rfl
      have hlive0 : liveB (kv.1, rowDict headers r2) = true := by
        rw [show liveB (kv.1, rowDict headers r2) = liveB kv from by
          unfold liveB; rw [hval]]
        exact hlive
      have hin : dictErase (rowDict headers r2) "__deleted__" ∈ rows := by
        have heq := scanQuery_none_eq headers log hid hdel har
        rw [heq] at hq0
        have hXr : ((scanMap headers log).filter liveB).map
            (fun kv => dictErase kv.2 "__deleted__") = rows :=
          (Option.some.inj hq0).trans hre
        have hmf : (kv.1, rowDict headers r2) ∈
            (scanMap headers log).filter liveB :=
          List.mem_filter.mpr ⟨hkv0, hlive0⟩
        rw [← hXr]
        exact List.mem_map.mpr ⟨_, hmf, rfl⟩
      apply hnorow _ hin
      have harr2 : r2.cells.length = headers.length :=
        har r2 (lastRecFor_mem headers log kv.1 r2 hlast).1
      rw [rowDict_erase headers r2 harr2 hdel]
      exact hrecid
    rw [hnil]
    rfl
  | some c =>
    rw [scanQuery_some_eq headers _ c hid hdel har' hwf]
    have hnil : ((scanMap headers (log ++ tombsOf rows)).filter liveB).filter
        (fun kv => evalWhereClause kv.2 c = some true) = [] := by
      rw [List.filter_eq_nil_iff]
      intro kv hkvf hev
      have hkv := List.mem_of_mem_filter hkvf
      have hlive := List.of_mem_filter hkvf
      obtain ⟨r2, hval, hlive2, hrecid, hlast, hnorow⟩ :=
        live_after_tombs headers log rows hshape hdel har kv hkv hlive
      have harr2 : r2.cells.length = headers.length :=
        har r2 (lastRecFor_mem headers log kv.1 r2 hlast).1
      have hevr : evalWhereClause (rowDict headers r2) c = some true := by
        rw [← hval]
        simpa using hev
      have hkv0 : (kv.1, rowDict headers r2) ∈ scanMap headers log := by
        apply mem_of_dictLookup_eq_some
        rw [scanMap_lookup, hlast]
        rfl
      have hlive0 : liveB (kv.1, rowDict headers r2) = true := by
        rw [show liveB (kv.1, rowDict headers r2) = liveB kv from by
          unfold liveB; rw [hval]]
        exact hlive
      have hin : dictErase (rowDict headers r2) "__deleted__" ∈ rows := by
        have heq := scanQuery_some_eq headers log c hid hdel har hwf
        rw [heq] at hq0
        have hXr : (((scanMap headers log).filter liveB).filter
            (fun kv => evalWhereClause kv.2 c = some true)).map
              (fun kv => dictErase kv.2 "__deleted__") = rows :=
          (Option.some.inj hq0).trans hre
        have hmf : (kv.1, rowDict headers r2) ∈
            ((scanMap headers log).filter liveB).filter
              (fun kv => evalWhereClause kv.2 c = some true) := by
          apply List.mem_filter.mpr
          refine ⟨List.mem_filter.mpr ⟨hkv0, hlive0⟩, ?_⟩
          simpa using hevr
        rw [← hXr]
        exact List.mem_map.mpr ⟨_, hmf, rfl⟩
      apply hnorow _ hin
      rw [rowDict_erase headers r2 harr2 hdel]
      exact hrecid
    rw [hnil]
    rfl

/-- Rows returned by the scan path are precisely user dicts of live latest
records. -/
theorem scanQuery_rows_live (headers : List String) (log : List Rec)
    (w : Option Cond) (hid : "id" ∈ headers) (hdel : "__deleted__" ∉ headers)
    (har : ∀ r ∈ log, r.cells.length = headers.length)
    (hwf : wfWhere headers w) :
    ∃ rows, scanQuery headers log w = some rows ∧
      ∀ row ∈ rows, ∃ r k, r ∈ log ∧ row = headers.zip r.cells ∧
        recId headers r = some k ∧ dictLookup row "id" = some k ∧
        lastRecFor headers log k = some r ∧ r.deleted = false := by
  have hmem : ∀ (ft : List (String × List (String × String))),
      (∀ kv ∈ ft, kv ∈ scanMap headers log ∧ liveB kv = true) →
      ∀ row ∈ ft.map (fun kv => dictErase kv.2 "__deleted__"),
        ∃ r k, r ∈ log ∧ row = headers.zip r.cells ∧
          recId headers r = some k ∧ dictLookup row "id" = some k ∧
          lastRecFor headers log k = some r ∧ r.deleted = false := by
    intro ft hsub row hrow
    simp only [List.mem_map] at hrow
    obtain ⟨kv, hkv, hroweq⟩ := hrow
    obtain ⟨hkvm, hkvl⟩ := hsub kv hkv
    obtain ⟨r, hr, hrecid, hlast, hval⟩ := scanMap_mem headers log kv hkvm
    have harr := har r hr
    have hlive : r.deleted = false := by
      unfold liveB at hkvl
      rw [hval, rowDict_deleted headers r harr hdel] at hkvl
      simp only [Option.some.injEq, decide_eq_true_eq] at hkvl
      exact (flagStr_eq_false_iff r.deleted).mp hkvl
    have hroweq2 : row = headers.zip r.cells := by
      rw [← hroweq, hval, rowDict_erase headers r harr hdel]
    refine ⟨r, kv.1, hr, hroweq2, hrecid, ?_, hlast, hlive⟩
    rw [hroweq2]
    exact hrecid
  cases w with
  | none =>
    refine ⟨_, scanQuery_none_eq headers log hid hdel har, ?_⟩
    apply hmem
    intro kv hkv
    exact ⟨List.mem_of_mem_filter hkv, List.of_mem_filter hkv⟩
  | some c =>
    refine ⟨_, scanQuery_some_eq headers log c hid hdel har hwf, ?_⟩
    apply hmem
    intro kv hkv
    have h1 := List.mem_of_mem_filter hkv
    exact ⟨List.mem_of_mem_filter h1, List.of_mem_filter h1⟩

/-- Rows returned by either query path are precisely user dicts of live latest
records. -/
theorem queryIdx_rows_live (headers : List String) (st : IState)
    (w : Option Cond) (hw : wfHeaders headers) (hinv : invI headers st)
    (hwf : wfWhere headers w) :
    ∃ rows, queryIdx headers st w = some rows ∧
      ∀ row ∈ rows, ∃ r k, r ∈ st.log ∧ row = headers.zip r.cells ∧
        recId headers r = some k ∧ dictLookup row "id" = some k ∧
        lastRecFor headers st.log k = some r ∧ r.deleted = false := by
  obtain ⟨hnd, hid, hdel⟩ := hw
  have har : ∀ r ∈ st.log, r.cells.length = headers.length :=
    fun r hr => (hinv.1 r hr).1
  cases w with
  | none => exact scanQuery_rows_live headers st.log none hid hdel har trivial
  | some c =>
    cases c with
    | and l r =>
      exact scanQuery_rows_live headers st.log (some (Cond.and l r)) hid hdel har hwf
    | eq col v =>
      by_cases hcol : col = "id"
      · subst hcol
        unfold queryIdx
        dsimp only
        rw [if_pos rfl, (hinv.2 v)]
        cases hoff : specOffsets headers st.log v with
        | none => exact ⟨[], rfl, by simp⟩
        | some se =>
          obtain ⟨sb, eb⟩ := se
          have hplain : ∀ r ∈ st.log, ∀ c ∈ r.cells, plainStr c = true :=
            fun r hr => (hinv.1 r hr).2
          obtain ⟨r, hlast, hdl, hmemr, hread, hdecode⟩ :=
            specOffsets_decode headers st.log v sb eb hoff hplain
          have harr := har r hmemr
          have hrecid : recId headers r = some v :=
            (lastRecFor_mem headers st.log v r hlast).2
          dsimp only
          rw [hread, recLine_ne_nil r]
          simp only [Bool.false_eq_true, if_false]
          rw [hread] at hdecode
          rw [hdecode]
          have hcont : dictContains (rowDict headers r) "__deleted__" = true := by
            unfold dictContains
            rw [rowDict_deleted headers r harr hdel]
            rfl
          rw [hcont]
          simp only [if_true]
          rw [rowDict_erase headers r harr hdel]
          have htot : (evalWhereClause (headers.zip r.cells)
              (Cond.eq "id" v)).isSome := by
            apply evalWhere_isSome headers _ _ hwf
            intro col hcolm
            apply dictLookup_isSome_of_mem_keys
            rw [keys_zip headers r.cells harr]
            exact hcolm
          cases hev : evalWhereClause (headers.zip r.cells) (Cond.eq "id" v) with
          | none => rw [hev] at htot; simp at htot
          | some b =>
            cases b with
            | true =>
              refine ⟨_, rfl, ?_⟩
              intro row hrow
              simp only [List.mem_singleton] at hrow
              subst hrow
              refine ⟨r, v, hmemr, rfl, hrecid, ?_, hlast, hdl⟩
              show dictLookup (headers.zip r.cells) "id" = some v
              exact hrecid
            | false => exact ⟨[], rfl, by simp⟩
      · have hrw : queryIdx headers st (some (Cond.eq col v)) =
            scanQuery headers st.log (some (Cond.eq col v)) := by
          unfold queryIdx
          dsimp only
          rw [if_neg hcol]
        rw [hrw]
        exact scanQuery_rows_live headers st.log (some (Cond.eq col v)) hid hdel har hwf

/-! ## Invariant preservation: delete -/

theorem queryIdx_eq_scan (headers : List String) (st : IState) (w : Option Cond)
    (h : usesScan w) : queryIdx headers st w = scanQuery headers st.log w := by
  cases w with
  | none => rfl
  | some c =>
    cases c with
    | and l r => rfl
    | eq col v =>
      unfold queryIdx
      dsimp only
      rw [if_neg h]

/-- The indexed point-query path returns at most one row, and when it returns
one, that row is the live latest record for the queried key. -/
theorem queryIdx_idEq_cases (headers : List String) (st : IState) (v : String)
    (hw : wfHeaders headers) (hinv : invI headers st) :
    queryIdx headers st (some (Cond.eq "id" v)) = some [] ∨
    ∃ r, lastRecFor headers st.log v = some r ∧ r.deleted = false ∧
      recId headers r = some v ∧
      queryIdx headers st (some (Cond.eq "id" v)) = some [headers.zip r.cells] := by
  obtain ⟨hnd, hid, hdel⟩ := hw
  have har : ∀ r ∈ st.log, r.cells.length = headers.length :=
    fun r hr => (hinv.1 r hr).1
  unfold queryIdx
  dsimp only
  rw [if_pos rfl, (hinv.2 v)]
  cases hoff : specOffsets headers st.log v with
  | none => exact Or.inl rfl
  | some se =>
    obtain ⟨sb, eb⟩ := se
    have hplain : ∀ r ∈ st.log, ∀ c ∈ r.cells, plainStr c = true :=
      fun r hr => (hinv.1 r hr).2
    obtain ⟨r, hlast, hdl, hmemr, hread, hdecode⟩ :=
      specOffsets_decode headers st.log v sb eb hoff hplain
    have harr := har r hmemr
    have hrecid : recId headers r = some v :=
      (lastRecFor_mem headers st.log v r hlast).2
    dsimp only
    rw [hread, recLine_ne_nil r]
    simp only [Bool.false_eq_true, if_false]
    rw [hread] at hdecode
    rw [hdecode]
    have hcont : dictContains (rowDict headers r) "__deleted__" = true := by
      unfold dictContains
      rw [rowDict_deleted headers r harr hdel]
      rfl
    rw [hcont]
    simp only [if_true]
    rw [rowDict_erase headers r harr hdel]
    have hev : evalWhereClause (headers.zip r.cells) (Cond.eq "id" v) =
        some (decide (v = stripApos v)) := by
      unfold evalWhereClause
      rw [show dictLookup (headers.zip r.cells) "id" = some v from hrecid]
    rw [hev]
    by_cases hvv : v = stripApos v
    · right
      exact ⟨r, hlast, hdl, hrecid, by rw [decide_eq_true hvv]⟩
    · left
      rw [decide_eq_false hvv]

theorem tombsOf_plain (headers : List String) (log : List Rec)
    (rows : List (List (String × String)))
    (hshape : ∀ row ∈ rows, ∃ r, r ∈ log ∧ row = headers.zip r.cells)
    (hplain : ∀ r ∈ log, ∀ c ∈ r.cells, plainStr c = true) :
    ∀ t ∈ tombsOf rows, ∀ c ∈ t.cells, plainStr c = true := by
  intro t ht
  simp only [tombsOf, List.mem_map] at ht
  obtain ⟨row, hrow, hteq⟩ := ht
  obtain ⟨r, hr, hroweq⟩ := hshape row hrow
  rw [← hteq]
  intro c hc
  apply hplain r hr
  have : c ∈ (headers.zip r.cells).map Prod.snd := by
    rw [← hroweq]
    exact hc
  rcases List.mem_map.mp this with ⟨kv, hkv, hceq⟩
  exact hceq ▸ (List.of_mem_zip hkv).2

/-- The tail of the delete loop on an already fully tombstoned table: every
remaining iteration queries nothing, appends nothing, and only erases the
row's key from the index. -/
theorem delete_loop_tail (headers : List String) (w : Option Cond)
    (logF : List Rec)
    (hscan : ∀ acc : IState, acc.log = logF →
      queryIdx headers acc w = some []) :
    ∀ (rest : List (List (String × String))) (acc st' : IState),
      acc.log = logF →
      rest.foldlM (deleteLoopBody headers w) acc = some st' →
      st'.log = logF ∧ ∃ keys : List String,
        st'.idx = keys.foldl (fun m k => dictErase m k) acc.idx ∧
        (∀ row ∈ rest, ∃ k ∈ keys, dictLookup row "id" = some k) ∧
        (∀ k ∈ keys, ∃ row ∈ rest, dictLookup row "id" = some k) := by
  intro rest
  induction rest with
  | nil =>
    intro acc st' hlog h
    simp only [List.foldlM_nil] at h
    cases h
    exact ⟨hlog, [], rfl, by simp, by simp⟩
  | cons row rest' ih =>
    intro acc st' hlog h
    simp only [List.foldlM_cons] at h
    have hsup : superDelete headers acc w = some acc := by
      unfold superDelete
      rw [hscan acc hlog]
      rfl
    rw [show deleteLoopBody headers w acc row =
        (match dictLookup row "id" with
         | none => none
         | some key =>
           if dictContains acc.idx key then
             some { acc with idx := dictErase acc.idx key }
           else none) from by
      unfold deleteLoopBody
      rw [hsup]
      rfl] at h
    cases hkey : dictLookup row "id" with
    | none => rw [hkey] at h; simp at h
    | some k =>
      rw [hkey] at h
      dsimp only at h
      by_cases hcont : dictContains acc.idx k = true
      · rw [if_pos hcont] at h
        simp only [Option.bind_eq_bind, Option.some_bind] at h
        obtain ⟨hlog', keys', hidx', hcov1, hcov2⟩ :=
          ih { acc with idx := dictErase acc.idx k } st' hlog h
        refine ⟨hlog', k :: keys', ?_, ?_, ?_⟩
        · rw [hidx']
          rfl
        · intro row0 hrow0
          rcases List.mem_cons.mp hrow0 with hrow0 | hrow0
          · exact ⟨k, List.mem_cons_self k keys', hrow0 ▸ hkey⟩
          · obtain ⟨k0, hk0, hl0⟩ := hcov1 row0 hrow0
            exact ⟨k0, List.mem_cons_of_mem k hk0, hl0⟩
        · intro k0 hk0
          rcases List.mem_cons.mp hk0 with hk0 | hk0
          · exact ⟨row, List.mem_cons_self row rest', hk0 ▸ hkey⟩
          · obtain ⟨row0, hrow0, hl0⟩ := hcov2 k0 hk0
            exact ⟨row0, List.mem_cons_of_mem row hrow0, hl0⟩
      · rw [if_neg hcont] at h
        simp at h

theorem appendTombstones_eq (st : IState) (rows : List (List (String × String))) :
    appendTombstones st rows = { log := st.log ++ tombsOf rows, idx := st.idx } := rfl

theorem inv_delete_scan (headers : List String) (st st' : IState)
    (w : Option Cond) (hw : wfHeaders headers) (hwfw : wfWhere headers w)
    (hscanw : usesScan w) (hinv : invI headers st)
    (h : deleteRows headers st w = some st') : invI headers st' := by
  obtain ⟨hnd, hid, hdel⟩ := hw
  have har : ∀ r ∈ st.log, r.cells.length = headers.length :=
    fun r hr => (hinv.1 r hr).1
  have hplain : ∀ r ∈ st.log, ∀ c ∈ r.cells, plainStr c = true :=
    fun r hr => (hinv.1 r hr).2
  have hq := queryIdx_eq_scan headers st w hscanw
  obtain ⟨rows, hqs, hrl⟩ := scanQuery_rows_live headers st.log w hid hdel har hwfw
  have hshapew : ∀ row ∈ rows, ∃ r, r ∈ st.log ∧ row = headers.zip r.cells := by
    intro row hrow
    obtain ⟨r, k, hr, hroweq, _, _, _, _⟩ := hrl row hrow
    exact ⟨r, hr, hroweq⟩
  unfold deleteRows at h
  rw [hq, hqs] at h
  simp only [Option.bind_eq_bind, Option.some_bind] at h
  cases rows with
  | nil =>
    simp only [List.foldlM_nil] at h
    cases h
    exact hinv
  | cons row1 rest =>
    obtain ⟨r1, k1, hr1, hrow1eq, hrecid1, hlook1, hlast1, hlive1⟩ :=
      hrl row1 (List.mem_cons_self row1 rest)
    simp only [List.foldlM_cons] at h
    have hsup1 : superDelete headers st w =
        some { log := st.log ++ tombsOf (row1 :: rest), idx := st.idx } := by
      unfold superDelete
      rw [hq, hqs]
      simp [appendTombstones_eq]
    have hcont1 : dictContains st.idx k1 = true := by
      unfold dictContains
      rw [hinv.2 k1]
      exact specOffsets_isSome_of_live headers st.log k1 r1 hlast1 hlive1
    have hbody1 : deleteLoopBody headers w st row1 =
        some { log := st.log ++ tombsOf (row1 :: rest),
               idx := dictErase st.idx k1 } := by
      unfold deleteLoopBody
      rw [hsup1]
      simp only [Option.bind_eq_bind, Option.some_bind, hlook1]
      rw [if_pos hcont1]
      rfl
    rw [hbody1] at h
    simp only [Option.bind_eq_bind, Option.some_bind] at h
    have hscanF : ∀ acc : IState, acc.log = st.log ++ tombsOf (row1 :: rest) →
        queryIdx headers acc w = some [] := by
      intro acc hlog
      rw [queryIdx_eq_scan headers acc w hscanw, hlog]
      exact scanQuery_after_tombs headers st.log w (row1 :: rest)
        hid hdel har hwfw hqs
    obtain ⟨hlogF, keys', hidx', hcov1, hcov2⟩ :=
      delete_loop_tail headers w (st.log ++ tombsOf (row1 :: rest)) hscanF
        rest _ st' rfl h
    have hidxAll : st'.idx =
        (k1 :: keys').foldl (fun m k => dictErase m k) st.idx := by
      rw [hidx']
      rfl
    have hcovAll1 : ∀ row ∈ row1 :: rest, ∃ k ∈ k1 :: keys',
        dictLookup row "id" = some k := by
      intro row hrow
      rcases List.mem_cons.mp hrow with hrow | hrow
      · exact ⟨k1, List.mem_cons_self k1 keys', hrow ▸ hlook1⟩
      · obtain ⟨k, hk, hl⟩ := hcov1 row hrow
        exact ⟨k, List.mem_cons_of_mem k1 hk, hl⟩
    have hcovAll2 : ∀ k ∈ k1 :: keys', ∃ row ∈ row1 :: rest,
        dictLookup row "id" = some k := by
      intro k hk
      rcases List.mem_cons.mp hk with hk | hk
      · exact ⟨row1, List.mem_cons_self row1 rest, hk ▸ hlook1⟩
      · obtain ⟨row, hrow, hl⟩ := hcov2 k hk
        exact ⟨row, List.mem_cons_of_mem row1 hrow, hl⟩
    constructor
    · intro r hr
      rw [hlogF] at hr
      rcases List.mem_append.mp hr with hr | hr
      · exact hinv.1 r hr
      · exact ⟨tombsOf_arity headers st.log _ hshapew har r hr,
          tombsOf_plain headers st.log _ hshapew hplain r hr⟩
    · intro q
      rw [hidxAll, dictLookup_eraseAll, hlogF]
      by_cases hqmem : q ∈ k1 :: keys'
      · rw [if_pos hqmem]
        obtain ⟨row, hrow, hl⟩ := hcovAll2 q hqmem
        have ht : (⟨row.map Prod.snd, true⟩ : Rec) ∈ tombsOf (row1 :: rest) := by
          simp only [tombsOf, List.mem_map]
          exact ⟨row, hrow, rfl⟩
        have hti : recId headers (⟨row.map Prod.snd, true⟩ : Rec) = some q := by
          rw [tombsOf_recId headers st.log _ hshapew har row hrow]
          exact hl
        have hsome := lastRecFor_isSome_of_occ headers (tombsOf (row1 :: rest))
          q _ ht hti
        cases htomb : lastRecFor headers (tombsOf (row1 :: rest)) q with
        | none => rw [htomb] at hsome; simp at hsome
        | some t =>
          have htdel := lastRecFor_deleted_of_all_deleted headers _ q t
            (tombsOf_deleted _) htomb
          have hlastF : lastRecFor headers
              (st.log ++ tombsOf (row1 :: rest)) q = some t := by
            rw [lastRecFor_append, htomb]
          exact (specOffsets_none_of_deleted headers _ q t hlastF htdel).symm
      · rw [if_neg hqmem, hinv.2 q]
        rw [specOffsets_append_no_id headers st.log _ q]
        intro t ht
        simp only [tombsOf, List.mem_map] at ht
        obtain ⟨row, hrow, hteq⟩ := ht
        rw [← hteq, tombsOf_recId headers st.log _ hshapew har row hrow]
        obtain ⟨k, hk, hl⟩ := hcovAll1 row hrow
        rw [hl]
        intro hc
        apply hqmem
        rw [← Option.some.inj hc]
        exact hk

theorem inv_delete_idEq (headers : List String) (st st' : IState) (v : String)
    (hw : wfHeaders headers) (hinv : invI headers st)
    (h : deleteRows headers st (some (Cond.eq "id" v)) = some st') :
    invI headers st' := by
  rcases queryIdx_idEq_cases headers st v hw hinv with hq0 | ⟨r, hlast, hlive, hrecid, hq1⟩
  · unfold deleteRows at h
    rw [hq0] at h
    simp only [Option.bind_eq_bind, Option.some_bind, List.foldlM_nil] at h
    cases h
    exact hinv
  · obtain ⟨hnd, hid, hdel⟩ := hw
    obtain ⟨hr1, _⟩ := lastRecFor_mem headers st.log v r hlast
    have harr := (hinv.1 r hr1).1
    unfold deleteRows at h
    rw [hq1] at h
    simp only [Option.bind_eq_bind, Option.some_bind, List.foldlM_cons,
      List.foldlM_nil] at h
    have hsup1 : superDelete headers st (some (Cond.eq "id" v)) =
        some { log := st.log ++ tombsOf [headers.zip r.cells], idx := st.idx } := by
      unfold superDelete
      rw [hq1]
      simp [appendTombstones_eq]
    have hlook : dictLookup (headers.zip r.cells) "id" = some v := hrecid
    have hcont : dictContains st.idx v = true := by
      unfold dictContains
      rw [hinv.2 v]
      exact specOffsets_isSome_of_live headers st.log v r hlast hlive
    rw [show deleteLoopBody headers (some (Cond.eq "id" v)) st
          (headers.zip r.cells) =
        some { log := st.log ++ tombsOf [headers.zip r.cells],
               idx := dictErase st.idx v } from by
      unfold deleteLoopBody
      rw [hsup1]
      simp only [Option.bind_eq_bind, Option.some_bind, hlook]
      rw [if_pos hcont]
      rfl] at h
    simp only [Option.bind_eq_bind, Option.some_bind] at h
    have hst' : st' = { log := st.log ++ tombsOf [headers.zip r.cells],
                        idx := dictErase st.idx v } := by
      exact (Option.some.inj h).symm
    subst hst'
    have htombeq : tombsOf [headers.zip r.cells] = [⟨r.cells, true⟩] := by
      unfold tombsOf
      rw [List.map_singleton, map_snd_row headers r harr]
    constructor
    · intro x hx
      simp only [htombeq] at hx
      rcases List.mem_append.mp hx with hx | hx
      · exact hinv.1 x hx
      · simp only [List.mem_singleton] at hx
        subst hx
        exact ⟨harr, fun c hc => (hinv.1 r hr1).2 c hc⟩
    · intro q
      simp only [htombeq]
      have hrecid2 : recId headers (⟨r.cells, true⟩ : Rec) = some v := hrecid
      by_cases hq : q = v
      · subst hq
        rw [show dictLookup (dictErase st.idx q) q = none from
          dictLookup_erase_self st.idx q]
        rw [specOffsets_snoc, if_pos hrecid2]
        rfl
      · rw [dictLookup_erase_ne st.idx v q hq, hinv.2 q,
          specOffsets_snoc, if_neg (by rw [hrecid2]; simpa using fun hc => hq hc.symm)]

theorem inv_delete (headers : List String) (st st' : IState) (w : Option Cond)
    (hw : wfHeaders headers) (hwfw : wfWhere headers w) (hinv : invI headers st)
    (h : deleteRows headers st w = some st') : invI headers st' := by
  cases w with
  | none => exact inv_delete_scan headers st st' none hw trivial trivial hinv h
  | some c =>
    cases c with
    | and l r =>
      exact inv_delete_scan headers st st' (some (Cond.and l r)) hw hwfw trivial hinv h
    | eq col v =>
      by_cases hcol : col = "id"
      · subst hcol
        exact inv_delete_idEq headers st st' v hw hinv h
      · exact inv_delete_scan headers st st' (some (Cond.eq col v)) hw hwfw hcol hinv h

/-! ## Invariant over whole runs -/

theorem inv_stepI (headers : List String) (st st' : IState) (op : Op)
    (hw : wfHeaders headers) (hop : wfOp headers op) (hinv : invI headers st)
    (h : stepI headers st op = some st') : invI headers st' := by
  cases op with
  | insert row =>
    obtain ⟨st2, heq, hinv2, _⟩ := inv_insert headers st row hw hop hinv
    rw [show stepI headers st (Op.insert row) = insertRow headers st row from rfl,
      heq] at h
    cases h
    exact hinv2
  | update s w => exact inv_update headers st st' s w hw hop hinv h
  | delete w => exact inv_delete headers st st' w hw hop hinv h

theorem inv_init (headers : List String) : invI headers ⟨[], []⟩ := by
  constructor
  · intro r hr
    simp at hr
  · intro k
    rfl

theorem inv_runI (headers : List String) (ops : List Op) (st' : IState)
    (hw : wfHeaders headers) (hops : ∀ op ∈ ops, wfOp headers op)
    (h : runI headers ops = some st') : invI headers st' := by
  unfold runI at h
  have hgen : ∀ (l : List Op) (st0 st1 : IState), (∀ op ∈ l, wfOp headers op) →
      invI headers st0 → l.foldlM (stepI headers) st0 = some st1 →
      invI headers st1 := by
    intro l
    induction l with
    | nil =>
      intro st0 st1 _ hinv0 hfold
      simp only [List.foldlM_nil] at hfold
      cases hfold
      exact hinv0
    | cons op rest ih =>
      intro st0 st1 hl hinv0 hfold
      simp only [List.foldlM_cons] at hfold
      cases hstep : stepI headers st0 op with
      | none => rw [hstep] at hfold; simp at hfold
      | some stm =>
        rw [hstep] at hfold
        simp only [Option.bind_eq_bind, Option.some_bind] at hfold
        exact ih stm st1 (fun o ho => hl o (List.mem_cons_of_mem op ho))
          (inv_stepI headers st0 stm op hw (hl op (List.mem_cons_self op rest))
            hinv0 hstep) hfold
  exact hgen ops ⟨[], []⟩ st' hops (inv_init headers) h

theorem invB_insert (headers : List String) (log : List Rec)
    (row : List (String × String)) (hrow : wfRow headers row)
    (hinv : invB headers log) : invB headers (insertB log row) := by
  intro r hr
  rcases List.mem_append.mp hr with hr | hr
  · exact hinv r hr
  · simp only [List.mem_singleton] at hr
    subst hr
    refine ⟨by rw [← hrow.1]; simp, ?_⟩
    intro c hc
    rcases List.mem_map.mp hc with ⟨kv, hkv, hceq⟩
    exact hceq ▸ hrow.2 kv hkv

theorem inv_stepB (headers : List String) (log log' : List Rec) (op : Op)
    (hw : wfHeaders headers) (hop : wfOp headers op) (hinv : invB headers log)
    (h : stepB headers log op = some log') : invB headers log' := by
  obtain ⟨hnd, hid, hdel⟩ := hw
  have har : ∀ r ∈ log, r.cells.length = headers.length := fun r hr => (hinv r hr).1
  cases op with
  | insert row =>
    simp only [stepB, Option.some.injEq] at h
    exact h ▸ invB_insert headers log row hop hinv
  | update s w =>
    obtain ⟨hsnd, hset, hwfw⟩ := hop
    unfold stepB at h
    dsimp only at h
    unfold updateB at h
    by_cases hidset : dictContains s "id" = true
    · rw [if_pos hidset] at h
      simp at h
    · rw [if_neg hidset] at h
      obtain ⟨rows, hq, hshape⟩ :=
        scanQuery_rows_shape headers log w hid hdel har hwfw
      rw [hq] at h
      simp only [Option.bind_eq_bind, Option.some_bind] at h
      replace h := Option.some.inj h
      subst h
      have hrows : ∀ row ∈ rows, wfRow headers (dictUpdate row s) := by
        intro row hrow
        obtain ⟨r, hr, hroweq⟩ := hshape row hrow
        have harr := har r hr
        have hkeys0 : row.map Prod.fst = headers := by
          rw [hroweq]
          exact keys_zip headers r.cells harr
        constructor
        · rw [dictUpdate_keys row s ?_, hkeys0]
          intro kv hkv
          rw [hkeys0]
          exact (hset kv hkv).1
        · intro kv hkv
          rcases dictUpdate_mem_values row s kv hkv with h1 | h1
          · obtain ⟨kv0, hkv0, hval⟩ := h1
            rw [hval]
            have : kv0.2 ∈ r.cells := (List.of_mem_zip (hroweq ▸ hkv0)).2
            exact (hinv r hr).2 kv0.2 this
          · obtain ⟨kv1, hkv1, hval⟩ := h1
            rw [hval]
            exact (hset kv1 hkv1).2
      have hfold : ∀ (l : List (List (String × String))) (acc : List Rec),
          (∀ row ∈ l, wfRow headers (dictUpdate row s)) → invB headers acc →
          invB headers (l.foldl (fun a row => insertB a (dictUpdate row s)) acc) := by
        intro l
        induction l with
        | nil => intro acc _ hacc; exact hacc
        | cons row rest ih =>
          intro acc hl hacc
          simp only [List.foldl_cons]
          exact ih _ (fun x hx => hl x (List.mem_cons_of_mem row hx))
            (invB_insert headers acc _ (hl row (List.mem_cons_self row rest)) hacc)
      exact hfold rows log hrows hinv
  | delete w =>
    unfold stepB at h
    dsimp only at h
    unfold deleteB at h
    obtain ⟨rows, hq, hshape⟩ := scanQuery_rows_shape headers log w hid hdel har hop
    rw [hq] at h
    simp only [Option.bind_eq_bind, Option.some_bind] at h
    replace h := Option.some.inj h
    subst h
    by_cases hre : rows.isEmpty = true
    · rw [if_pos hre]
      exact hinv
    · rw [if_neg hre]
      intro r hr
      rcases List.mem_append.mp hr with hr | hr
      · exact hinv r hr
      · refine ⟨tombsOf_arity headers log rows hshape har r hr, ?_⟩
        exact tombsOf_plain headers log rows hshape
          (fun x hx => (hinv x hx).2) r hr

theorem inv_runB (headers : List String) (ops : List Op) (log' : List Rec)
    (hw : wfHeaders headers) (hops : ∀ op ∈ ops, wfOp headers op)
    (h : runB headers ops = some log') : invB headers log' := by
  unfold runB at h
  have hgen : ∀ (l : List Op) (a b : List Rec), (∀ op ∈ l, wfOp headers op) →
      invB headers a → l.foldlM (stepB headers) a = some b → invB headers b := by
    intro l
    induction l with
    | nil =>
      intro a b _ hinv0 hfold
      simp only [List.foldlM_nil] at hfold
      cases hfold
      exact hinv0
    | cons op rest ih =>
      intro a b hl hinv0 hfold
      simp only [List.foldlM_cons] at hfold
      cases hstep : stepB headers a op with
      | none => rw [hstep] at hfold; simp at hfold
      | some am =>
        rw [hstep] at hfold
        simp only [Option.bind_eq_bind, Option.some_bind] at hfold
        exact ih am b (fun o ho => hl o (List.mem_cons_of_mem op ho))
          (inv_stepB headers a am op hw (hl op (List.mem_cons_self op rest))
            hinv0 hstep) hfold
  exact hgen ops [] log' hops (by intro r hr; simp at hr) h

/-! ## Claim C1 -/

/-- C1 (amended): for every table and every sequence of insert/update/delete
operations whose cell values are plain (free of CSV metacharacters, of edge
whitespace and of edge quotes), a subsequent query with `WHERE id = k` returns
exactly the cells of the last record for `k` when that record is not
tombstoned (with the `__deleted__` column removed), and an empty row list
otherwise — on both the scan-path engine (`AppendOnlyDBMS.query`) and the
indexed engine (`AppendOnlyDBMSWithHashIndexes.query`).  The original claim,
quantifying over arbitrary cell values, fails on the indexed engine because
its read path splits the stored line on raw commas
(see `c1_indexed_comma_counterexample`). -/
theorem c1_query_returns_last_live (headers : List String) (ops : List Op)
    (k : String) (logB : List Rec) (stI : IState)
    (hw : wfHeaders headers) (hops : ∀ op ∈ ops, wfOp headers op)
    (hk : plainStr k = true)
    (hB : runB headers ops = some logB) (hI : runI headers ops = some stI) :
    scanQuery headers logB (some (Cond.eq "id" k)) =
      some (specQueryId headers logB k) ∧
    queryIdx headers stI (some (Cond.eq "id" k)) =
      some (specQueryId headers stI.log k) := by
  have hinvB := inv_runB headers ops logB hw hops hB
  have hinvI := inv_runI headers ops stI hw hops hI
  obtain ⟨hnd, hid, hdel⟩ := hw
  constructor
  · exact scanQuery_id_correct headers logB k hid hdel
      (fun r hr => (hinvB r hr).1) (plain_stripApos hk)
  · exact queryIdx_id_correct headers stI k hid hdel hinvI hk

/-- Witness for C1's amended theorem at a concrete run. -/
theorem c1_query_returns_last_live_witness :
    wfHeaders ["id"] ∧ plainStr "1" = true ∧
    scanQuery ["id"] [⟨["1"], false⟩] (some (Cond.eq "id" "1")) =
      some (specQueryId ["id"] [⟨["1"], false⟩] "1") ∧
    queryIdx ["id"] ⟨[⟨["1"], false⟩], [("1", (16, 25))]⟩
        (some (Cond.eq "id" "1")) =
      some (specQueryId ["id"] [⟨["1"], false⟩] "1") := by
  have hw : wfHeaders ["id"] := ⟨by decide, by decide, by decide⟩
  have hops : ∀ op ∈ [Op.insert [("id", "1")]], wfOp ["id"] op := by
    intro op hop
    simp only [List.mem_singleton] at hop
    subst hop
    exact ⟨rfl, by decide⟩
  have hmain := c1_query_returns_last_live ["id"] [Op.insert [("id", "1")]] "1"
    [⟨["1"], false⟩] ⟨[⟨["1"], false⟩], [("1", (16, 25))]⟩
    hw hops (by decide) rfl rfl
  exact ⟨hw, by decide, hmain.1, hmain.2⟩

/-- C1 counterexample: with a cell value containing a comma, the indexed query
path returns garbage cells (the CSV-quoted value split on its raw comma)
instead of the cells of the last non-tombstoned record, so the original claim
is false on `AppendOnlyDBMSWithHashIndexes.query`. -/
theorem c1_indexed_comma_counterexample :
    runI ["id", "name"] [Op.insert [("id", "1"), ("name", "a,b")]] =
      some ⟨[⟨["1", "a,b"], false⟩], [("1", (21, 36))]⟩ ∧
    queryIdx ["id", "name"] ⟨[⟨["1", "a,b"], false⟩], [("1", (21, 36))]⟩
        (some (Cond.eq "id" "1")) =
      some [[("id", "1"), ("name", "\"a")]] ∧
    specQueryId ["id", "name"] [⟨["1", "a,b"], false⟩] "1" =
      [[("id", "1"), ("name", "a,b")]] ∧
    ([[("id", "1"), ("name", "\"a")]] : List (List (String × String))) ≠
      [[("id", "1"), ("name", "a,b")]] := by
  refine ⟨rfl, rfl, rfl, by decide⟩

/-! ## Claim C2 -/

/-- C2 (amended): the indexed path looks the literal up in the hash index
*verbatim* — surrounding single quotes are not stripped before the lookup
(stripping happens only in the re-evaluation of the WHERE clause after the
read) — and when the looked-up literal is absent from the index the `KeyError`
is caught and an empty result returned.  Consequently a quoted literal `'k'`
and the unquoted literal `k` do *not* retrieve the same row: with keys stored
unquoted, the quoted form finds nothing
(see `c2_quoted_literal_counterexample`). -/
theorem c2_verbatim_lookup_empty (headers : List String) (st : IState)
    (v : String) (h : dictLookup st.idx v = none) :
    queryIdx headers st (some (Cond.eq "id" v)) = some [] := by
  unfold queryIdx
  dsimp only
  rw [if_pos rfl, h]

/-- Witness for C2's amended theorem: the quoted literal `'1'` is looked up
verbatim, misses the index whose key is `1`, and yields an empty result. -/
theorem c2_verbatim_lookup_empty_witness :
    dictLookup ([("1", (21, 35))] : List (String × (Nat × Nat))) "'1'" = none ∧
    queryIdx ["id", "name"] ⟨[⟨["1", "John"], false⟩], [("1", (21, 35))]⟩
      (some (Cond.eq "id" "'1'")) = some [] :=
  ⟨rfl, c2_verbatim_lookup_empty ["id", "name"]
    ⟨[⟨["1", "John"], false⟩], [("1", (21, 35))]⟩ "'1'" rfl⟩

/-- C2 counterexample: after inserting the row with id `1`, querying
`id = '1'` (quoted) returns no rows while `id = 1` (unquoted) returns the
row — the quoted and unquoted literals do not retrieve the same row, and no
quote stripping happens before the index lookup. -/
theorem c2_quoted_literal_counterexample :
    runI ["id", "name"] [Op.insert [("id", "1"), ("name", "John")]] =
      some ⟨[⟨["1", "John"], false⟩], [("1", (21, 35))]⟩ ∧
    queryIdx ["id", "name"] ⟨[⟨["1", "John"], false⟩], [("1", (21, 35))]⟩
        (some (Cond.eq "id" "'1'")) = some [] ∧
    queryIdx ["id", "name"] ⟨[⟨["1", "John"], false⟩], [("1", (21, 35))]⟩
        (some (Cond.eq "id" "1")) = some [[("id", "1"), ("name", "John")]] ∧
    (some ([] : List (List (String × String))) ≠
      some [[("id", "1"), ("name", "John")]]) := by
  refine ⟨rfl, rfl, rfl, by decide⟩

/-! ## Claim C5 -/

/-- C5 (amended): for every insert, the append path captures the end-of-file
offset as `start`, writes exactly one encoded record followed by the CSV
writer's default line terminator CRLF (`\r\n` — two bytes, not the single LF
the original claim states, see `c5_crlf_counterexample`), observes the new
end-of-file offset as `end = start + len(line)`, stores exactly
`(start, end)` in the hash index for the row's id, and the byte range
`[start, end)` of the file then contains precisely that record line
including its terminating CRLF. -/
theorem c5_insert_offsets (headers : List String) (st st' : IState)
    (row : List (String × String)) (key : String)
    (hkey : dictLookup row "id" = some key)
    (h : insertRow headers st row = some st') :
    st'.log = st.log ++ [⟨row.map Prod.snd, false⟩] ∧
    tableFile headers st'.log = tableFile headers st.log ++
      (joinFields (((row.map Prod.snd) ++ ["False"]).map csvField) ++
        ['\r', '\n']) ∧
    dictLookup st'.idx key = some ((tableFile headers st.log).length,
      (tableFile headers st.log).length +
        (recLine ⟨row.map Prod.snd, false⟩).length) ∧
    readRange (tableFile headers st'.log) (tableFile headers st.log).length
        ((tableFile headers st.log).length +
          (recLine ⟨row.map Prod.snd, false⟩).length) =
      recLine ⟨row.map Prod.snd, false⟩ := by
  unfold insertRow at h
  rw [hkey] at h
  have hst' := (Option.some.inj h).symm
  subst hst'
  refine ⟨rfl, ?_, ?_, ?_⟩
  · rw [tableFile_snoc]
    rfl
  · simp only
    rw [dictLookup_upsert, if_pos rfl]
  · simp only
    rw [tableFile_snoc]
    have := readRange_extract (tableFile headers st.log)
      (recLine ⟨row.map (fun kv => kv.2), false⟩) []
    rw [List.append_nil] at this
    exact this

/-- Witness for C5's amended theorem at a concrete insert. -/
theorem c5_insert_offsets_witness :
    dictLookup [("id", "1")] "id" = some "1" ∧
    insertRow ["id"] ⟨[], []⟩ [("id", "1")] =
      some ⟨[⟨["1"], false⟩], [("1", (16, 25))]⟩ ∧
    tableFile ["id"] [⟨["1"], false⟩] =
      tableFile ["id"] [] ++
        (joinFields ((["1"] ++ ["False"]).map csvField) ++ ['\r', '\n']) ∧
    readRange (tableFile ["id"] [⟨["1"], false⟩]) 16 25 =
      recLine ⟨["1"], false⟩ := by
  have hmain := c5_insert_offsets ["id"] ⟨[], []⟩
    ⟨[⟨["1"], false⟩], [("1", (16, 25))]⟩ [("id", "1")] "1" rfl rfl
  exact ⟨rfl, rfl, hmain.2.1, hmain.2.2.2⟩

/-- C5 counterexample: the `csv` writer's default line terminator is CRLF, so
the appended chunk ends in the two bytes `\r\n`, not the single byte LF the
claim states; the nine-byte line `1,False\r\n` is what `[start, end)` holds,
not `1,False\n`. -/
theorem c5_crlf_counterexample :
    insertRow ["id"] ⟨[], []⟩ [("id", "1")] =
      some ⟨[⟨["1"], false⟩], [("1", (16, 25))]⟩ ∧
    readRange (tableFile ["id"] [⟨["1"], false⟩]) 16 25 = "1,False\r\n".data ∧
    "1,False\r\n".data ≠ "1,False\n".data ∧
    (25 - 16 ≠ "1,False\n".length) := by
  refine ⟨rfl, rfl, by decide, by decide⟩

/-! ## Claim C6 -/

/-- C6 (amended): when an equality condition references a column that is
missing from the row's mapping, `evaluate_where_clause` does not return
false — the `row[column]` access raises a `KeyError` that propagates out of
the evaluation (modelled as `none`).  The original claim, that evaluation
returns false without an error, is refuted by
`c6_missing_column_counterexample`. -/
theorem c6_missing_column_keyerror (row : List (String × String))
    (col v : String) (h : dictLookup row col = none) :
    evalWhereClause row (Cond.eq col v) = none := by
  unfold evalWhereClause
  rw [h]

/-- Witness for C6's amended theorem at a concrete row and condition. -/
theorem c6_missing_column_keyerror_witness :
    dictLookup [("id", "1")] "name" = none ∧
    evalWhereClause [("id", "1")] (Cond.eq "name" "'John'") = none :=
  ⟨rfl, c6_missing_column_keyerror [("id", "1")] "name" "'John'" rfl⟩

/-- C6 counterexample: on a row lacking the `name` column the evaluation
raises (`none`), which is not the claimed `false`. -/
theorem c6_missing_column_counterexample :
    evalWhereClause [("id", "1")] (Cond.eq "name" "'John'") = none ∧
    (none ≠ some false) := by
  refine ⟨rfl, by decide⟩

/-! ## Claim C3 -/

/-- C3 (amended): in every state reachable by catalog operations in which
`drop_database` is never applied to the currently selected database, a set
`current_database` names an existing directory.  The original claim — that
the invariant also holds immediately after dropping the selected database —
is false: `drop_database` removes the directory but leaves
`current_database` untouched (see `c3_drop_current_counterexample`). -/
theorem c3_current_database_dir_exists (s : CatState) (d : String)
    (hreach : CatReachableSafe s) (hcur : s.current_database = some d) :
    d ∈ s.dirs := by
  induction hreach generalizing d with
  | init => simp at hcur
  | step s0 op s1 _ hstep hguard ih =>
    cases op with
    | createDb n =>
      unfold catStep at hstep
      dsimp only at hstep
      by_cases hn : n ∈ s0.dirs
      · rw [if_pos hn] at hstep; simp at hstep
      · rw [if_neg hn] at hstep
        have hs1 := (Option.some.inj hstep).symm
        subst hs1
        simp only at hcur
        exact List.mem_append_left _ (ih d hcur)
    | useDb n =>
      unfold catStep at hstep
      dsimp only at hstep
      by_cases hn : n ∈ s0.dirs
      · rw [if_pos hn] at hstep
        have hs1 := (Option.some.inj hstep).symm
        subst hs1
        simp only [Option.some.injEq] at hcur
        exact hcur ▸ hn
      · rw [if_neg hn] at hstep
        have hs1 := (Option.some.inj hstep).symm
        subst hs1
        exact ih d hcur
    | dropDb n =>
      unfold catStep at hstep
      dsimp only at hstep
      by_cases hn : n ∈ s0.dirs
      · rw [if_pos hn] at hstep
        have hs1 := (Option.some.inj hstep).symm
        subst hs1
        simp only at hcur
        have hne : d ≠ n := by
          intro hdn
          exact hguard n rfl (hdn ▸ hcur)
        exact (List.mem_erase_of_ne hne).mpr (ih d hcur)
      · rw [if_neg hn] at hstep
        simp at hstep
    | showDbs =>
      unfold catStep at hstep
      dsimp only at hstep
      have hs1 := (Option.some.inj hstep).symm
      subst hs1
      exact ih d hcur

/-- Witness for C3's amended theorem: after `create d; use d` the state is
safely reachable, `d` is selected, and its directory exists. -/
theorem c3_current_database_dir_exists_witness :
    CatReachableSafe ⟨["d"], some "d"⟩ ∧ "d" ∈ (⟨["d"], some "d"⟩ : CatState).dirs := by
  have h1 : CatReachableSafe ⟨["d"], none⟩ :=
    CatReachableSafe.step ⟨[], none⟩ (CatOp.createDb "d") ⟨["d"], none⟩
      CatReachableSafe.init rfl (fun n h => by cases h)
  have h2 : CatReachableSafe ⟨["d"], some "d"⟩ :=
    CatReachableSafe.step ⟨["d"], none⟩ (CatOp.useDb "d") ⟨["d"], some "d"⟩
      h1 rfl (fun n h => by cases h)
  exact ⟨h2, c3_current_database_dir_exists ⟨["d"], some "d"⟩ "d" h2 rfl⟩

/-- C3 counterexample: `create d; use d; drop d` completes without error and
leaves `current_database = some "d"` while no directory for `d` exists — the
claimed invariant does not survive dropping the selected database. -/
theorem c3_drop_current_counterexample :
    catRun [CatOp.createDb "d", CatOp.useDb "d", CatOp.dropDb "d"] =
      some ⟨[], some "d"⟩ ∧
    (⟨[], some "d"⟩ : CatState).current_database = some "d" ∧
    "d" ∉ (⟨[], some "d"⟩ : CatState).dirs := by
  refine ⟨rfl, rfl, by decide⟩

/-! ## Claim C9 -/

/-- C9 (amended): for every non-empty headers list, `create_table` appends
`"__deleted__"` to the very list object the caller passed (the caller's list
gains a trailing `__deleted__`), and passing that same list object to a
second `create_table` call yields a header row with two `__deleted__`
columns.  For an empty list the claim fails: `if not headers` replaces the
falsy `[]` by a fresh `["id"]` list and the caller's object is left
untouched (see `c9_empty_headers_counterexample`). -/
theorem c9_create_table_mutates_headers (headers : List String)
    (h : headers ≠ []) :
    create_table_caller_headers headers = headers ++ ["__deleted__"] ∧
    create_table_headers headers = headers ++ ["__deleted__"] ∧
    create_table_headers (create_table_caller_headers headers) =
      headers ++ ["__deleted__", "__deleted__"] := by
  have hne : headers.isEmpty = false := by
    cases headers with
    | nil => exact absurd rfl h
    | cons a l => rfl
  unfold create_table_caller_headers create_table_headers
  rw [hne]
  simp

/-- Witness for C9's amended theorem at a concrete headers list. -/
theorem c9_create_table_mutates_headers_witness :
    create_table_caller_headers ["id", "name"] = ["id", "name", "__deleted__"] ∧
    create_table_headers (create_table_caller_headers ["id", "name"]) =
      ["id", "name", "__deleted__", "__deleted__"] := by
  have hmain := c9_create_table_mutates_headers ["id", "name"] (by decide)
  exact ⟨hmain.1, by simpa using hmain.2.2⟩

/-- C9 counterexample: a caller passing the empty list sees no mutation at
all — `[]` is falsy, so `create_table` rebinds `headers` to a fresh `["id"]`
and appends to that fresh list instead of the caller's object. -/
theorem c9_empty_headers_counterexample :
    create_table_caller_headers [] = [] ∧
    create_table_headers [] = ["id", "__deleted__"] ∧
    ([] : List String) ≠ [] ++ ["__deleted__"] := by
  refine ⟨rfl, rfl, by decide⟩

/-! ## Claim C4 -/

theorem dictErase_of_not_mem {α : Type} (m : List (String × α)) (q : String)
    (h : q ∉ m.map Prod.fst) : dictErase m q = m := by
  apply List.filter_eq_self.mpr
  intro kv hkv
  simp only [ne_eq, decide_eq_true_eq]
  intro hc
  exact h (hc ▸ List.mem_map.mpr ⟨kv, hkv, rfl⟩)

theorem dictErase_fst {α : Type} (m : List (String × α)) (k : String)
    (hnd : (m.map Prod.fst).Nodup) :
    (dictErase m k).map Prod.fst = (m.map Prod.fst).erase k := by
  induction m with
  | nil => simp [dictErase]
  | cons hd rest ih =>
    obtain ⟨a, b⟩ := hd
    simp only [List.map_cons, List.nodup_cons] at hnd
    rw [dictErase_cons]
    by_cases hak : a = k
    · subst hak
      rw [if_pos rfl]
      rw [dictErase_of_not_mem rest a hnd.1]
      simp [List.erase_cons]
    · rw [if_neg hak]
      simp only [List.map_cons, List.erase_cons]
      rw [if_neg (by simpa using hak), ih hnd.2]

theorem dictContains_eq_mem {α : Type} (m : List (String × α)) (k : String) :
    dictContains m k = decide (k ∈ m.map Prod.fst) := by
  by_cases h : k ∈ m.map Prod.fst
  · rw [decide_eq_true h]
    exact dictLookup_isSome_of_mem_keys m k h
  · rw [decide_eq_false h]
    unfold dictContains
    rw [dictLookup_eq_none_of_not_mem_keys m k h]
    rfl

theorem hashIndexReplay_isSome (headers : List String) (idxCol : String)
    (log : List Rec) :
    ∀ (pos : Nat) (idx : List (String × (Nat × Nat))),
      (idx.map Prod.fst).Nodup →
      (hashIndexReplay headers idxCol pos idx log).isSome =
        tombstoneKeysPresent headers idxCol (idx.map Prod.fst) log := by
  induction log with
  | nil => intro pos idx _; rfl
  | cons r rest ih =>
    intro pos idx hnd
    unfold hashIndexReplay tombstoneKeysPresent
    dsimp only
    cases hfl : dictLookup (rowDict headers r) "__deleted__" with
    | none => rfl
    | some flag =>
      cases hkey : dictLookup (rowDict headers r) idxCol with
      | none => rfl
      | some key =>
        dsimp only
        by_cases hT : flag = "True"
        · rw [if_pos hT, if_pos hT]
          by_cases hmem : key ∈ idx.map Prod.fst
          · have hc : dictContains idx key = true := by
              rw [dictContains_eq_mem, decide_eq_true hmem]
            have hnd' : ((dictErase idx key).map Prod.fst).Nodup := by
              rw [dictErase_fst idx key hnd]
              exact hnd.erase key
            simp only [hc, if_true]
            rw [ih _ _ hnd', dictErase_fst idx key hnd]
            simp [hmem]
          · have hc : dictContains idx key = false := by
              rw [dictContains_eq_mem, decide_eq_false hmem]
            simp only [hc, Bool.false_eq_true, if_false]
            simp [hmem]
        · rw [if_neg hT, if_neg hT]
          rw [ih _ _ (dictUpsert_nodup idx key _ hnd), dictUpsert_fst]

/-- C4 (amended): the index-construction factory replays the log record by
record, removing the key when the tombstone flag is `True` — but the removal
is `del self.__index__[key]`, which raises a `KeyError` on an absent key
rather than tolerating it.  Replay completes without error exactly when
every tombstoned record's key is present in the mapping at its replay
position (and every record carries `__deleted__` and index cells); the
original claim that an absent key is silently tolerated is refuted by
`c4_absent_tombstone_counterexample`. -/
theorem c4_replay_completes_iff (headers : List String) (idxCol : String)
    (log : List Rec) :
    (hashIndexFromLog headers idxCol log).isSome =
      tombstoneKeysPresent headers idxCol [] log :=
  hashIndexReplay_isSome headers idxCol log (headerLine headers).length []
    List.nodup_nil

/-- C4 counterexample: a well-formed log whose single record is a tombstone
makes `from_csv` raise a `KeyError` (the `del` hits an absent key) instead of
completing, while the same tombstone preceded by a live record replays
fine. -/
theorem c4_absent_tombstone_counterexample :
    hashIndexFromLog ["id"] "id" [⟨["1"], true⟩] = none ∧
    (hashIndexFromLog ["id"] "id" [⟨["1"], true⟩]).isSome = false ∧
    hashIndexFromLog ["id"] "id" [⟨["1"], false⟩, ⟨["1"], true⟩] = some [] := by
  refine ⟨rfl, rfl, rfl⟩

/-! ## Claim C7 -/

theorem dictUpsert_not_mem_append {α : Type} (m : List (String × α)) (key : String)
    (v : α) (h : key ∉ m.map Prod.fst) : dictUpsert m key v = m ++ [(key, v)] := by
  induction m with
  | nil => rfl
  | cons hd rest ih =>
    obtain ⟨k, w⟩ := hd
    simp only [List.map_cons, List.mem_cons] at h
    push_neg at h
    have hk : ¬k = key := fun hc => h.1 (Eq.symm hc)
    unfold dictUpsert
    rw [if_neg hk, ih h.2]
    rfl

theorem rowDict_keys (headers : List String) (r : Rec)
    (har : r.cells.length = headers.length) :
    (rowDict headers r).map Prod.fst = headers ++ ["__deleted__"] := by
  unfold rowDict
  exact keys_zip _ _ (by simpa using har)

/-- On a log whose records all have distinct ids, the last-per-id map is just
the list of (id, row dict) pairs in order. -/
theorem scanMap_distinct (headers : List String) (kfun : Rec → String) :
    ∀ (log : List Rec), (∀ r ∈ log, recId headers r = some (kfun r)) →
      (log.map kfun).Nodup →
      scanMap headers log = log.map (fun r => (kfun r, rowDict headers r)) := by
  intro log
  induction log using List.reverseRecOn with
  | nil => intro _ _; rfl
  | append_singleton l r ih =>
    intro hk hnd
    simp only [List.map_append, List.map_singleton] at hnd
    have hndl : (l.map kfun).Nodup := (List.nodup_append.mp hnd).1
    have hfresh : kfun r ∉ l.map kfun := by
      intro hc
      exact (List.nodup_append.mp hnd).2.2 hc (List.mem_singleton_self _)
    rw [scanMap_snoc, hk r (List.mem_append_right _ (List.mem_singleton_self r)),
      ih (fun x hx => hk x (List.mem_append_left _ hx)) hndl]
    dsimp only
    rw [dictUpsert_not_mem_append]
    · simp
    · rw [List.map_map]
      simpa [Function.comp_def] using hfresh

/-- The read phase shared by `query` and `compact_table`, computed. -/
theorem liveMap_eq (headers : List String) (log : List Rec)
    (hid : "id" ∈ headers) (hdel : "__deleted__" ∉ headers)
    (har : ∀ r ∈ log, r.cells.length = headers.length) :
    liveMap headers log = some ((scanMap headers log).filter liveB) := by
  have hsome : ∀ r ∈ log, (recId headers r).isSome :=
    fun r hr => recId_isSome headers r (har r hr) hid
  have hlive : liveFilter (scanMap headers log) =
      some ((scanMap headers log).filter liveB) := by
    apply optFilter_eq_filter
    intro kv hkv
    obtain ⟨r, hr, _, _, hval⟩ := scanMap_mem headers log kv hkv
    simp [liveB, hval, rowDict_deleted headers r (har r hr) hdel]
  unfold liveMap
  rw [scanFold_eq_scanMap headers log hsome har]
  simp only [Option.bind_eq_bind, Option.some_bind, hlive]

/-- C7 (amended): compacting twice leaves the table file byte-identical to
its content after the first compact — *provided at least one row survives*.
On a table with no surviving rows (empty, or all latest records tombstoned),
`compact_table` raises an `IndexError` on
`list(compacted_data.values())[0]`, and it does so only after
`open(table_file, 'w')` has truncated the file, so the failed compact
leaves the file empty rather than unchanged
(see `c7_empty_compact_counterexample`). -/
theorem c7_compact_idempotent (headers : List String) (log out : List Rec)
    (hid : "id" ∈ headers) (hdel : "__deleted__" ∉ headers)
    (har : ∀ r ∈ log, r.cells.length = headers.length)
    (h : compactTable headers log = some out) :
    compactTable headers out = some out ∧
    compactFileBytes headers out = compactFileBytes headers log := by
  have hlm := liveMap_eq headers log hid hdel har
  unfold compactTable at h
  rw [hlm] at h
  simp only [Option.bind_eq_bind, Option.some_bind] at h
  -- the surviving map and its pointwise structure
  have hmmem : ∀ kv ∈ (scanMap headers log).filter liveB,
      ∃ r, r ∈ log ∧ r.deleted = false ∧ recId headers r = some kv.1 ∧
        kv.2 = rowDict headers r := by
    intro kv hkv
    obtain ⟨r, hr, hrecid, _, hval⟩ :=
      scanMap_mem headers log kv (List.mem_of_mem_filter hkv)
    have hlv := List.of_mem_filter hkv
    have hlive : r.deleted = false := by
      unfold liveB at hlv
      rw [hval, rowDict_deleted headers r (har r hr) hdel] at hlv
      simp only [Option.some.injEq, decide_eq_true_eq] at hlv
      exact (flagStr_eq_false_iff r.deleted).mp hlv
    exact ⟨r, hr, hlive, hrecid, hval⟩
  cases hm : (scanMap headers log).filter liveB with
  | nil =>
    rw [hm] at h
    simp at h
  | cons kv0 mrest =>
    rw [hm] at h
    dsimp only at h
    replace h := Option.some.inj h
    -- the compacted records: each is ⟨cells of its source record, false⟩
    have hf : ∀ kv ∈ (scanMap headers log).filter liveB,
        (⟨(dictErase kv.2 "__deleted__").map Prod.snd,
          !(dictLookup kv.2 "__deleted__" = some "False")⟩ : Rec) =
        ⟨(dictErase kv.2 "__deleted__").map Prod.snd, false⟩ := by
      intro kv hkv
      obtain ⟨r, hr, hlive, _, hval⟩ := hmmem kv hkv
      have : dictLookup kv.2 "__deleted__" = some "False" := by
        rw [hval, rowDict_deleted headers r (har r hr) hdel, hlive]
        rfl
      simp [this]
    have hcells : ∀ kv ∈ (scanMap headers log).filter liveB,
        ∃ r, r ∈ log ∧ r.deleted = false ∧ recId headers r = some kv.1 ∧
          kv.2 = rowDict headers r ∧
          (dictErase kv.2 "__deleted__").map Prod.snd = r.cells := by
      intro kv hkv
      obtain ⟨r, hr, hlive, hrecid, hval⟩ := hmmem kv hkv
      refine ⟨r, hr, hlive, hrecid, hval, ?_⟩
      rw [hval, rowDict_erase headers r (har r hr) hdel,
        map_snd_row headers r (har r hr)]
    -- out = the map entries turned into live records
    have hout : out = ((scanMap headers log).filter liveB).map
        (fun kv => (⟨(dictErase kv.2 "__deleted__").map Prod.snd, false⟩ : Rec)) := by
      rw [← h, hm]
      apply List.map_congr_left
      intro kv hkv
      exact hf kv (hm ▸ hkv)
    -- every out record is live, has the right arity and id
    have houtmem : ∀ rec ∈ out, ∃ kv ∈ (scanMap headers log).filter liveB,
        ∃ r, r ∈ log ∧ rec = ⟨r.cells, false⟩ ∧ recId headers r = some kv.1 ∧
          kv.2 = rowDict headers r := by
      intro rec hrec
      rw [hout] at hrec
      obtain ⟨kv, hkv, hreceq⟩ := List.mem_map.mp hrec
      obtain ⟨r, hr, hlive, hrecid, hval, hcl⟩ := hcells kv hkv
      exact ⟨kv, hkv, r, hr, by rw [← hreceq, hcl], hrecid, hval⟩
    have harout : ∀ rec ∈ out, rec.cells.length = headers.length := by
      intro rec hrec
      obtain ⟨kv, _, r, hr, hreceq, _, _⟩ := houtmem rec hrec
      rw [hreceq]
      exact har r hr
    have hkout : ∀ rec ∈ out,
        recId headers rec = some ((recId headers rec).getD "") := by
      intro rec hrec
      obtain ⟨kv, hkv, r, hr, hreceq, hrecid, _⟩ := houtmem rec hrec
      have : recId headers rec = some kv.1 := by
        rw [hreceq]
        show dictLookup (headers.zip r.cells) "id" = some kv.1
        exact hrecid
      rw [this]
      rfl
    -- the out ids are the map keys, hence distinct
    have hidsout : out.map (fun rec => (recId headers rec).getD "") =
        ((scanMap headers log).filter liveB).map Prod.fst := by
      rw [hout, List.map_map]
      apply List.map_congr_left
      intro kv hkv
      obtain ⟨r, hr, hlive, hrecid, hval, hcl⟩ := hcells kv hkv
      simp only [Function.comp_apply]
      have : recId headers (⟨(dictErase kv.2 "__deleted__").map Prod.snd,
          false⟩ : Rec) = some kv.1 := by
        show dictLookup (headers.zip _) "id" = some kv.1
        rw [hcl]
        exact hrecid
      rw [this]
      rfl
    have hndm : (((scanMap headers log).filter liveB).map Prod.fst).Nodup :=
      List.Nodup.sublist (List.Sublist.map Prod.fst (List.filter_sublist _))
        (scanMap_nodup headers log)
    have hndout : (out.map (fun rec => (recId headers rec).getD "")).Nodup := by
      rw [hidsout]
      exact hndm
    have houtlive : ∀ rec ∈ out, rec.deleted = false := by
      intro rec hrec
      obtain ⟨kv, _, r, _, hreceq, _, _⟩ := houtmem rec hrec
      rw [hreceq]
    have hscan := scanMap_distinct headers
      (fun rec => (recId headers rec).getD "") out hkout hndout
    have hlmout := liveMap_eq headers out hid hdel harout
    have hfilter' : (scanMap headers out).filter liveB =
        out.map (fun rec => ((recId headers rec).getD "", rowDict headers rec)) := by
      rw [hscan]
      apply List.filter_eq_self.mpr
      intro kv hkv
      obtain ⟨rec, hrec, hkveq⟩ := List.mem_map.mp hkv
      rw [← hkveq]
      show liveB _ = true
      unfold liveB
      rw [rowDict_deleted headers rec (harout rec hrec) hdel, houtlive rec hrec]
      rfl
    have houtshape : out = (⟨(dictErase kv0.2 "__deleted__").map Prod.snd,
        false⟩ : Rec) :: mrest.map
          (fun kv => (⟨(dictErase kv.2 "__deleted__").map Prod.snd, false⟩ : Rec)) := by
      rw [hout, hm]
      rfl
    have hpair_inverse : ∀ rec ∈ out,
        (⟨(dictErase (rowDict headers rec) "__deleted__").map Prod.snd,
          !(dictLookup (rowDict headers rec) "__deleted__" = some "False")⟩ : Rec) =
        rec := by
      intro rec hrec
      have h1 : dictErase (rowDict headers rec) "__deleted__" =
          headers.zip rec.cells := rowDict_erase headers rec (harout rec hrec) hdel
      have h2 : dictLookup (rowDict headers rec) "__deleted__" = some "False" := by
        rw [rowDict_deleted headers rec (harout rec hrec) hdel, houtlive rec hrec]
        rfl
      rw [h1, h2, map_snd_row headers rec (harout rec hrec)]
      cases rec with
      | mk cells deleted =>
        have hd : deleted = false := houtlive _ hrec
        subst hd
        simp
    constructor
    · obtain ⟨o0, orest, houtc⟩ : ∃ a l, out = a :: l := by
        rw [houtshape]
        exact ⟨_, _, rfl⟩
      unfold compactTable
      rw [hlmout]
      simp only [Option.bind_eq_bind, Option.some_bind]
      rw [hfilter', houtc]
      dsimp only [List.map_cons]
      congr 1
      congr 1
      · exact hpair_inverse o0 (by rw [houtc]; exact List.mem_cons_self o0 orest)
      · rw [List.map_map]
        have htail : ∀ rec ∈ orest,
            ((fun kv => (⟨(dictErase kv.2 "__deleted__").map Prod.snd,
                !(dictLookup kv.2 "__deleted__" = some "False")⟩ : Rec)) ∘
              (fun rec => ((recId headers rec).getD "", rowDict headers rec))) rec =
            rec := by
          intro rec hrec
          exact hpair_inverse rec (by rw [houtc]; exact List.mem_cons_of_mem _ hrec)
        rw [List.map_congr_left htail]
        simp
    · have hvals : ∀ kv ∈ (scanMap headers log).filter liveB,
          (rowDict headers
            (⟨(dictErase kv.2 "__deleted__").map Prod.snd, false⟩ : Rec)).map
              Prod.snd = kv.2.map Prod.snd := by
        intro kv hkv
        obtain ⟨r, hr, hlive, hrecid, hval, hcl⟩ := hcells kv hkv
        rw [hcl]
        show ((headers ++ ["__deleted__"]).zip (r.cells ++ [flagStr false])).map
            Prod.snd = kv.2.map Prod.snd
        rw [hval]
        show _ = (rowDict headers r).map Prod.snd
        unfold rowDict
        rw [← hlive]
      unfold compactFileBytes
      rw [hlmout, hlm]
      simp only [Option.bind_eq_bind, Option.some_bind]
      rw [hfilter', hm, houtshape]
      dsimp only [List.map_cons]
      congr 2
      · -- the header line written on both passes is the same
        have hk0 : ∃ r0, r0 ∈ log ∧ r0.cells.length = headers.length ∧
            kv0.2 = rowDict headers r0 := by
          obtain ⟨r0, hr0, _, _, hval0⟩ :=
            hmmem kv0 (by rw [hm]; exact List.mem_cons_self kv0 mrest)
          exact ⟨r0, hr0, har r0 hr0, hval0⟩
        obtain ⟨r0, hr0, har0, hval0⟩ := hk0
        have harf : ((dictErase kv0.2 "__deleted__").map Prod.snd).length =
            headers.length := by
          rw [hval0, rowDict_erase headers r0 har0 hdel, map_snd_row headers r0 har0]
          exact har0
        rw [rowDict_keys headers _ harf, hval0, rowDict_keys headers r0 har0]
      · -- the data lines written on both passes are the same
        congr 1
        congr 1
        · congr 1
          exact hvals kv0 (by rw [hm]; exact List.mem_cons_self kv0 mrest)
        · rw [List.map_map, List.map_map]
          apply List.map_congr_left
          intro kv hkv
          simp only [Function.comp_apply]
          congr 1
          exact hvals kv (by rw [hm]; exact List.mem_cons_of_mem _ hkv)

theorem c7_compact_idempotent_witness :
    compactTable ["id", "name"]
        [⟨["1", "a"], false⟩, ⟨["2", "b"], false⟩, ⟨["1", "c"], false⟩,
          ⟨["2", "b"], true⟩] = some [⟨["1", "c"], false⟩] ∧
    compactTable ["id", "name"] [⟨["1", "c"], false⟩] = some [⟨["1", "c"], false⟩] ∧
    compactFileBytes ["id", "name"] [⟨["1", "c"], false⟩] =
      compactFileBytes ["id", "name"]
        [⟨["1", "a"], false⟩, ⟨["2", "b"], false⟩, ⟨["1", "c"], false⟩,
          ⟨["2", "b"], true⟩] :=
  ⟨by decide,
   c7_compact_idempotent ["id", "name"]
     [⟨["1", "a"], false⟩, ⟨["2", "b"], false⟩, ⟨["1", "c"], false⟩,
       ⟨["2", "b"], true⟩] [⟨["1", "c"], false⟩]
     (by decide) (by decide) (by decide) (by decide)⟩

/-- C7 counterexample to the unqualified claim: on a table whose every
latest record is tombstoned, `compact_table` raises an `IndexError` at
`list(compacted_data.values())[0]` — and only after `open(table_file, 'w')`
has truncated the file, so the failed compact turns a previously non-empty
table file into an empty one rather than leaving it unchanged.  An empty
table fails the same way. -/
theorem c7_empty_compact_counterexample :
    compactTable ["id"] [⟨["1"], true⟩] = none ∧
    compactTableFileAfter ["id"] [⟨["1"], true⟩] = [] ∧
    tableFile ["id"] [⟨["1"], true⟩] ≠ [] ∧
    compactTable ["id"] ([] : List Rec) = none ∧
    compactTableFileAfter ["id"] ([] : List Rec) = [] := by
  refine ⟨?_, ?_, ?_, ?_, ?_⟩ <;> decide

/-- On a successful compact the file-after definition and the rewritten
bytes coincide: the truncation wrinkle only matters on the raising paths. -/
theorem compactTableFileAfter_of_some (headers : List String) (log : List Rec)
    (bs : List Char) (h : compactFileBytes headers log = some bs) :
    compactTableFileAfter headers log = bs := by
  unfold compactFileBytes at h
  unfold compactTableFileAfter
  cases hlm : liveMap headers log with
  | none => rw [hlm] at h; simp at h
  | some m =>
    rw [hlm] at h
    simp only [Option.bind_eq_bind, Option.some_bind] at h
    cases m with
    | nil => simp at h
    | cons kv0 rest =>
      dsimp only at h ⊢
      exact Option.some.inj h

/-! ## Claim C8 -/

/-- C8: the token kinds the spec lists do not match the tokenizer. The
`TokenType` enum and the pattern table stop at
CREATE/USE/DATABASE/TABLE/SELECT/FROM/INSERT/INTO/VALUES plus the five
symbols, IDENTIFIER, LITERAL and WS: there is no pattern for `=` (so
tokenizing `=` — and hence any UPDATE/DELETE statement with a WHERE or SET
clause — hits the illegal-character exception), and the words WHERE,
DATABASES, DROP, SHOW, UPDATE, SET, DELETE, AND, TABLES tokenize as plain
IDENTIFIERs, not as keywords. `parser.py` and `grammar.py` nevertheless
reference `TokenType.SHOW/DATABASES/TABLES/DROP/WHERE/AND/EQUALS`, which
raises `AttributeError` as soon as the parser module is imported. -/
theorem c8_tokenizer_rejects_spec_tokens :
    tokenize "=" = none ∧
    tokenize "WHERE" = some [(TokType.IDENTIFIER, "WHERE")] ∧
    tokenize "DATABASES" = some [(TokType.IDENTIFIER, "DATABASES")] ∧
    tokenize "DROP" = some [(TokType.IDENTIFIER, "DROP")] ∧
    tokenize "UPDATE users SET name = 'John';" = none := by
  refine ⟨rfl, rfl, rfl, rfl, rfl⟩

/-! ## Claim C10 -/

/-- C10: every table-level operation guarded by `require_isset_database`
(create_table, drop_table, show_tables, insert, update, delete, query,
compact_table), called while `current_database` is `None`, returns the
`status="error"` result with the fixed message, raises no exception
(the result is `some`, not `none`), and returns the engine state — files
and hash indexes — unchanged: the decorator answers before the wrapped
method runs. -/
theorem c10_guard_blocks_all_ops (e : Engine) (tbl : String)
    (headers : List String) (row setClause : List (String × String))
    (w : Option Cond) (h : e.current_database = none) :
    engine_create_table e tbl headers = some (e, errorNoDb) ∧
    engine_drop_table e tbl = some (e, errorNoDb) ∧
    engine_show_tables e = some (e, errorNoDb) ∧
    engine_insert e tbl row = some (e, errorNoDb) ∧
    engine_update e tbl setClause w = some (e, errorNoDb) ∧
    engine_delete e tbl w = some (e, errorNoDb) ∧
    engine_query e tbl w = some (e, errorNoDb) ∧
    engine_compact_table e tbl = some (e, errorNoDb) ∧
    errorNoDb.status = "error" ∧ errorNoDb.message ≠ "" := by
  unfold engine_create_table engine_drop_table engine_show_tables
    engine_insert engine_update engine_delete engine_query
    engine_compact_table require_isset_database
  rw [h]
  exact ⟨rfl, rfl, rfl, rfl, rfl, rfl, rfl, rfl, rfl, by decide⟩

theorem c10_guard_blocks_all_ops_witness :
    (Engine.mk none [] []).current_database = none ∧
    (engine_create_table (Engine.mk none [] []) "users" ["id"] =
        some (Engine.mk none [] [], errorNoDb) ∧
      engine_drop_table (Engine.mk none [] []) "users" =
        some (Engine.mk none [] [], errorNoDb) ∧
      engine_show_tables (Engine.mk none [] []) =
        some (Engine.mk none [] [], errorNoDb) ∧
      engine_insert (Engine.mk none [] []) "users" [("id", "1")] =
        some (Engine.mk none [] [], errorNoDb) ∧
      engine_update (Engine.mk none [] []) "users" [("name", "Bob")] none =
        some (Engine.mk none [] [], errorNoDb) ∧
      engine_delete (Engine.mk none [] []) "users" none =
        some (Engine.mk none [] [], errorNoDb) ∧
      engine_query (Engine.mk none [] []) "users" none =
        some (Engine.mk none [] [], errorNoDb) ∧
      engine_compact_table (Engine.mk none [] []) "users" =
        some (Engine.mk none [] [], errorNoDb) ∧
      errorNoDb.status = "error" ∧ errorNoDb.message ≠ "") :=
  ⟨rfl, c10_guard_blocks_all_ops (Engine.mk none [] []) "users" ["id"]
    [("id", "1")] [("name", "Bob")] none rfl⟩

end DumbDB
